import Mathlib

/-!
# Verification of the pocketstore namespaced key-value store

This file shallowly embeds the pocketstore TypeScript library
(src/store.ts, src/crypto.ts, src/types.ts) in Lean 4 and proves or
refutes the claims extracted from its specification.

Modelling conventions:
* JavaScript strings are `List Char` (Unicode scalar values).
* The storage medium (localStorage / sessionStorage / in-memory Map) is an
  insertion-ordered association list `List (Str × Str)`; `Map.set` updates
  in place, `Map.delete` removes the entry, `key(i)` enumerates in order.
  JavaScript storage objects never hold duplicate physical keys, so some
  theorems assume `mediumWF` (no duplicate keys), which every reachable
  medium satisfies.
* JSON values are modelled by the mutual inductive `JValue`/`JArr`/`JObj`.
  Numbers are integers: the store only ever writes integer expiry stamps,
  and floating point is outside the scope of this embedding (records
  containing float literals are not modelled).
* `JSON.stringify` / `JSON.parse` are modelled by `jstrV` / `jparse`.
  The parser handles exactly the JSON fragment relevant here (no
  whitespace skipping, integer numerals); records produced by the store
  never contain whitespace or non-integer numerals.
* `Date.now()` is an explicit integer parameter `now` of each operation;
  one operation runs at one instant.
* A thrown JavaScript exception escaping a public operation is modelled by
  an `Option`-result being `none`.  In the source, `set` does not guard
  `encrypt` (so `btoa` of a non-Latin-1 secret throws out of `set`), and
  `get` reads `parsed.expiry` outside its try/catch (so a record whose
  JSON text is `null` makes `get` throw a TypeError); all other paths are
  caught or cannot throw.
* JavaScript `undefined` is conflated with `null` in operation results
  (`get` returns `undefined` instead of `null` only for records not
  written through `set`, a distinction no claim observes).
-/

/-- JavaScript strings, modelled as lists of Unicode scalar values. -/
abbrev Str := List Char

/-! ## The storage medium (Storage interface / in-memory Map) -/

/-- The storage medium: an insertion-ordered list of (physical key, value)
pairs, as maintained by a JavaScript `Map` or web storage object. -/
abbrev Medium := List (Str × Str)

/-- `storage.getItem`: the value stored at a physical key, if present. -/
def getItem : Medium → Str → Option Str
  | [], _ => none
  | (k0, v0) :: t, k => if k0 = k then some v0 else getItem t k

/-- `storage.setItem` / `Map.set`: update in place if the key exists,
otherwise append at the end (JavaScript insertion order). -/
def setItem : Medium → Str → Str → Medium
  | [], k, v => [(k, v)]
  | (k0, v0) :: t, k, v => if k0 = k then (k0, v) :: t else (k0, v0) :: setItem t k v

/-- `storage.removeItem` / `Map.delete`: drop the entry with this key. -/
def removeItem : Medium → Str → Medium
  | [], _ => []
  | (k0, v0) :: t, k => if k0 = k then removeItem t k else (k0, v0) :: removeItem t k

/-- Media reachable through the JavaScript `Map`/`Storage` interface have no
duplicate physical keys. -/
def mediumWF (m : Medium) : Prop := (m.map Prod.fst).Nodup

/-- `createMemoryStorage()` (src/store.ts line 5): allocates a fresh, empty
`Map` on every call; each fallback store instance therefore starts from its
own private empty medium. -/
def createMemoryStorage : Medium := []

/-! ## JSON values -/

mutual
/-- A JSON value (what `JSON.parse` can produce); numbers restricted to
integers, see the header. -/
inductive JValue where
  | null : JValue
  | bool (b : Bool) : JValue
  | num (n : Int) : JValue
  | str (s : Str) : JValue
  | arr (elems : JArr) : JValue
  | obj (fields : JObj) : JValue
  deriving DecidableEq
/-- A JSON array, as a fused list of `JValue`s. -/
inductive JArr where
  | nil : JArr
  | cons (hd : JValue) (tl : JArr) : JArr
  deriving DecidableEq
/-- A JSON object: an ordered field list (duplicates possible when parsed). -/
inductive JObj where
  | nil : JObj
  | cons (k : Str) (v : JValue) (tl : JObj) : JObj
  deriving DecidableEq
end

/-- Field access `o[key]` on a parsed JSON object: JavaScript keeps the value
of the last duplicate key. -/
def jfield : JObj → Str → Option JValue
  | .nil, _ => none
  | .cons k v tl, key =>
    match jfield tl key with
    | some r => some r
    | none => if k = key then some v else none

/-- Property access `parsed.key`: `undefined` (here `none`) on non-objects. -/
def jfieldV : JValue → Str → Option JValue
  | .obj fs, key => jfield fs key
  | _, _ => none

/-! ## JSON.stringify -/

/-- Hex digit used by the `\u00XX` escapes of `JSON.stringify` (lowercase). -/
def hexDig (n : Nat) : Char :=
  if n < 10 then Char.ofNat (48 + n) else Char.ofNat (87 + n)

/-- How `JSON.stringify` renders one character inside a string literal. -/
def escChar (c : Char) : Str :=
  if c = '"' then ['\\', '"']
  else if c = '\\' then ['\\', '\\']
  else if c.toNat = 8 then ['\\', 'b']
  else if c.toNat = 9 then ['\\', 't']
  else if c.toNat = 10 then ['\\', 'n']
  else if c.toNat = 12 then ['\\', 'f']
  else if c.toNat = 13 then ['\\', 'r']
  else if c.toNat < 32 then ['\\', 'u', '0', '0', hexDig (c.toNat / 16), hexDig (c.toNat % 16)]
  else [c]

/-- Body of a JSON string literal (no surrounding quotes). -/
def escBody : Str → Str
  | [] => []
  | c :: t => escChar c ++ escBody t

/-- A complete JSON string literal. -/
def strLit (s : Str) : Str := '"' :: (escBody s ++ ['"'])

/-- Decimal digit character. -/
def digitChar (d : Nat) : Char := Char.ofNat (48 + d)

/-- Decimal digits of a natural number (fuelled; `natDigs` supplies enough). -/
def natDigsAux : Nat → Nat → Str
  | 0, _ => []
  | fuel + 1, n =>
    if n < 10 then [digitChar n] else natDigsAux fuel (n / 10) ++ [digitChar (n % 10)]

/-- Decimal digits of a natural number. -/
def natDigs (n : Nat) : Str := natDigsAux (n + 1) n

/-- `JSON.stringify` of an integer. -/
def intStr (n : Int) : Str :=
  if n < 0 then '-' :: natDigs n.natAbs else natDigs n.natAbs

mutual
/-- `JSON.stringify` on a JSON value. -/
def jstrV : JValue → Str
  | .null => "null".toList
  | .bool true => "true".toList
  | .bool false => "false".toList
  | .num n => intStr n
  | .str s => strLit s
  | .arr xs => '[' :: jstrA xs
  | .obj fs => '{' :: jstrO fs
/-- Array body after the opening bracket: first element (or closing). -/
def jstrA : JArr → Str
  | .nil => [']']
  | .cons v tl => jstrV v ++ jstrAMore tl
/-- Array body continuation: comma-separated elements, then closing. -/
def jstrAMore : JArr → Str
  | .nil => [']']
  | .cons v tl => ',' :: (jstrV v ++ jstrAMore tl)
/-- Object body after the opening brace: first field (or closing). -/
def jstrO : JObj → Str
  | .nil => ['}']
  | .cons k v tl => strLit k ++ (':' :: (jstrV v ++ jstrOMore tl))
/-- Object body continuation: comma-separated fields, then closing. -/
def jstrOMore : JObj → Str
  | .nil => ['}']
  | .cons k v tl => ',' :: (strLit k ++ (':' :: (jstrV v ++ jstrOMore tl)))
end

/-! ## JSON.parse -/

/-- Is this a decimal digit character? -/
def isDig (c : Char) : Bool := 48 ≤ c.toNat && c.toNat ≤ 57

/-- Read a maximal run of decimal digits, returning their values and the
rest of the input. -/
def readDigits : Str → List Nat × Str
  | [] => ([], [])
  | c :: t =>
    if isDig c then
      let p := readDigits t
      ((c.toNat - 48) :: p.1, p.2)
    else ([], c :: t)

/-- Value of a digit list, most significant first. -/
def digsVal (ds : List Nat) : Nat := ds.foldl (fun a d => 10 * a + d) 0

/-- Value of a hex digit character, if it is one. -/
def hexVal (c : Char) : Option Nat :=
  if 48 ≤ c.toNat ∧ c.toNat ≤ 57 then some (c.toNat - 48)
  else if 97 ≤ c.toNat ∧ c.toNat ≤ 102 then some (c.toNat - 87)
  else if 65 ≤ c.toNat ∧ c.toNat ≤ 70 then some (c.toNat - 55)
  else none

/-- Parse the body of a JSON string literal (the opening quote already
consumed), handling the escape sequences `JSON.parse` accepts. -/
def parseStrBody : Str → Option (Str × Str)
  | [] => none
  | c :: r =>
    if c = '"' then some ([], r)
    else if c = '\\' then
      match r with
      | [] => none
      | e :: r1 =>
        if e = '"' then (parseStrBody r1).map (fun p => ('"' :: p.1, p.2))
        else if e = '\\' then (parseStrBody r1).map (fun p => ('\\' :: p.1, p.2))
        else if e = '/' then (parseStrBody r1).map (fun p => ('/' :: p.1, p.2))
        else if e = 'b' then (parseStrBody r1).map (fun p => (Char.ofNat 8 :: p.1, p.2))
        else if e = 'f' then (parseStrBody r1).map (fun p => (Char.ofNat 12 :: p.1, p.2))
        else if e = 'n' then (parseStrBody r1).map (fun p => (Char.ofNat 10 :: p.1, p.2))
        else if e = 'r' then (parseStrBody r1).map (fun p => (Char.ofNat 13 :: p.1, p.2))
        else if e = 't' then (parseStrBody r1).map (fun p => (Char.ofNat 9 :: p.1, p.2))
        else if e = 'u' then
          match r1 with
          | h1 :: h2 :: h3 :: h4 :: r2 =>
            match hexVal h1, hexVal h2, hexVal h3, hexVal h4 with
            | some a, some b, some c3, some d =>
              (parseStrBody r2).map
                (fun p => (Char.ofNat (4096 * a + 256 * b + 16 * c3 + d) :: p.1, p.2))
            | _, _, _, _ => none
          | _ => none
        else none
    else if c.toNat < 32 then none
    else (parseStrBody r).map (fun p => (c :: p.1, p.2))

mutual
/-- Recursive-descent `JSON.parse` for the fragment described in the header;
`fuel` bounds the nesting depth (any `fuel` above the value's size works). -/
def parseVal : Nat → Str → Option (JValue × Str)
  | 0, _ => none
  | fuel + 1, s =>
    match s with
    | 'n' :: 'u' :: 'l' :: 'l' :: r => some (.null, r)
    | 't' :: 'r' :: 'u' :: 'e' :: r => some (.bool true, r)
    | 'f' :: 'a' :: 'l' :: 's' :: 'e' :: r => some (.bool false, r)
    | '"' :: r => (parseStrBody r).map (fun p => (.str p.1, p.2))
    | '[' :: r => (parseArrRest fuel r).map (fun p => (.arr p.1, p.2))
    | '{' :: r => (parseObjRest fuel r).map (fun p => (.obj p.1, p.2))
    | '-' :: r =>
      match readDigits r with
      | ([], _) => none
      | (d :: ds, r2) => some (.num (-(Int.ofNat (digsVal (d :: ds)))), r2)
    | c :: r =>
      if isDig c then
        match readDigits (c :: r) with
        | (ds, r2) => some (.num (Int.ofNat (digsVal ds)), r2)
      else none
    | [] => none
/-- After `[`: empty array or first element. -/
def parseArrRest : Nat → Str → Option (JArr × Str)
  | 0, _ => none
  | fuel + 1, s =>
    match s with
    | ']' :: r => some (.nil, r)
    | _ =>
      match parseVal fuel s with
      | none => none
      | some (v, r) =>
        match parseArrMore fuel r with
        | none => none
        | some (xs, r2) => some (.cons v xs, r2)
/-- After an array element: `,` and another element, or `]`. -/
def parseArrMore : Nat → Str → Option (JArr × Str)
  | 0, _ => none
  | fuel + 1, s =>
    match s with
    | ']' :: r => some (.nil, r)
    | ',' :: r =>
      match parseVal fuel r with
      | none => none
      | some (v, r2) =>
        match parseArrMore fuel r2 with
        | none => none
        | some (xs, r3) => some (.cons v xs, r3)
    | _ => none
/-- After `{`: empty object or first field. -/
def parseObjRest : Nat → Str → Option (JObj × Str)
  | 0, _ => none
  | fuel + 1, s =>
    match s with
    | '}' :: r => some (.nil, r)
    | '"' :: r =>
      match parseStrBody r with
      | none => none
      | some (k, r1) =>
        match r1 with
        | ':' :: r2 =>
          match parseVal fuel r2 with
          | none => none
          | some (v, r3) =>
            match parseObjMore fuel r3 with
            | none => none
            | some (fs, r4) => some (.cons k v fs, r4)
        | _ => none
    | _ => none
/-- After an object field: `,` and another field, or `}`. -/
def parseObjMore : Nat → Str → Option (JObj × Str)
  | 0, _ => none
  | fuel + 1, s =>
    match s with
    | '}' :: r => some (.nil, r)
    | ',' :: r =>
      match r with
      | '"' :: r1 =>
        match parseStrBody r1 with
        | none => none
        | some (k, r2) =>
          match r2 with
          | ':' :: r3 =>
            match parseVal fuel r3 with
            | none => none
            | some (v, r4) =>
              match parseObjMore fuel r4 with
              | none => none
              | some (fs, r5) => some (.cons k v fs, r5)
          | _ => none
      | _ => none
    | _ => none
end

/-- `JSON.parse`: parse the whole string (anything left over is an error). -/
def jparse (s : Str) : Option JValue :=
  match parseVal (s.length + 1) s with
  | some (v, []) => some v
  | _ => none

/-! ## The obfuscation codec (src/crypto.ts) -/

/-- The base64 alphabet, in index order. -/
def b64Tab : Str :=
  "ABCDEFGHIJKLMNOPQRSTUVWXYZabcdefghijklmnopqrstuvwxyz0123456789+/".toList

/-- Character for a 6-bit group. -/
def b64Chr (n : Nat) : Char := b64Tab.getD n 'A'

/-- Base64-encode a byte list (the always-succeeding core of `btoa`). -/
def b64Enc : List Nat → Str
  | [] => []
  | [b0] => [b64Chr (b0 / 4), b64Chr (b0 % 4 * 16), '=', '=']
  | [b0, b1] => [b64Chr (b0 / 4), b64Chr (b0 % 4 * 16 + b1 / 16), b64Chr (b1 % 16 * 4), '=']
  | b0 :: b1 :: b2 :: rest =>
    b64Chr (b0 / 4) :: b64Chr (b0 % 4 * 16 + b1 / 16) ::
      b64Chr (b1 % 16 * 4 + b2 / 64) :: b64Chr (b2 % 64) :: b64Enc rest

/-- Index of a character in the base64 alphabet. -/
def b64IdxAux : Str → Nat → Char → Option Nat
  | [], _, _ => none
  | t :: ts, i, c => if t = c then some i else b64IdxAux ts (i + 1) c

/-- Index of a character in the base64 alphabet. -/
def b64Idx (c : Char) : Option Nat := b64IdxAux b64Tab 0 c

/-- `atob` as a byte-list producer (failure = the `InvalidCharacterError` it
throws); strict about padding, which only matters for inputs no caller of
this model ever produces. -/
def b64Dec : Str → Option (List Nat)
  | [] => some []
  | c0 :: c1 :: c2 :: c3 :: rest =>
    match b64Idx c0, b64Idx c1 with
    | some a, some b =>
      if c2 = '=' then
        if c3 = '=' ∧ rest = [] then some [a * 4 + b / 16] else none
      else
        match b64Idx c2 with
        | some c =>
          if c3 = '=' then
            if rest = [] then some [a * 4 + b / 16, b % 16 * 16 + c / 4] else none
          else
            match b64Idx c3 with
            | some d =>
              (b64Dec rest).map
                (fun bs => (a * 4 + b / 16) :: (b % 16 * 16 + c / 4) :: ((c % 4 * 64 + d) :: bs))
            | none => none
        | none => none
    | _, _ => none
  | _ => none

/-- Is every character Latin-1 (what `btoa` accepts)? -/
def latin1 (s : Str) : Bool := s.all (fun c => c.toNat < 256)

/-- `btoa`: base64 of a Latin-1 string, otherwise it throws. -/
def btoaJS (s : Str) : Option Str :=
  if latin1 s then some (b64Enc (s.map Char.toNat)) else none

/-- UTF-8 bytes of one character (`TextEncoder`). -/
def utf8EncChar (c : Char) : List Nat :=
  let n := c.toNat
  if n < 128 then [n]
  else if n < 2048 then [192 + n / 64, 128 + n % 64]
  else if n < 65536 then [224 + n / 4096, 128 + n / 64 % 64, 128 + n % 64]
  else [240 + n / 262144, 128 + n / 4096 % 64, 128 + n / 64 % 64, 128 + n % 64]

/-- UTF-8 bytes of a string (`TextEncoder().encode`). -/
def utf8Enc : Str → List Nat
  | [] => []
  | c :: t => utf8EncChar c ++ utf8Enc t

/-- U+FFFD, the replacement character. -/
def replChar : Char := Char.ofNat 65533

/-- Is this byte a UTF-8 continuation byte? -/
def contB (b : Nat) : Bool := 128 ≤ b && b < 192

mutual
/-- `TextDecoder().decode`: total, substituting U+FFFD on malformed input
(error recovery is simplified — a malformed multi-byte sequence collapses
to one replacement — which only differs from the platform on byte lists no
caller here produces; every byte list actually decoded in this development
is valid UTF-8 output of `utf8Enc`). -/
def utf8Dec : List Nat → Str
  | [] => []
  | b0 :: t =>
    if b0 < 128 then Char.ofNat b0 :: utf8Dec t
    else if b0 < 192 then replChar :: utf8Dec t
    else if b0 < 224 then utf8Dec2 b0 t
    else if b0 < 240 then utf8Dec3 b0 t
    else utf8Dec4 b0 t
/-- Continuation of `utf8Dec` after a two-byte leader. -/
def utf8Dec2 (b0 : Nat) : List Nat → Str
  | b1 :: t2 =>
    if contB b1 then Char.ofNat ((b0 - 192) * 64 + (b1 - 128)) :: utf8Dec t2
    else replChar :: utf8Dec t2
  | [] => [replChar]
/-- Continuation of `utf8Dec` after a three-byte leader. -/
def utf8Dec3 (b0 : Nat) : List Nat → Str
  | b1 :: b2 :: t3 =>
    if contB b1 && contB b2 then
      Char.ofNat ((b0 - 224) * 4096 + (b1 - 128) * 64 + (b2 - 128)) :: utf8Dec t3
    else replChar :: utf8Dec t3
  | _ => [replChar]
/-- Continuation of `utf8Dec` after a four-byte leader. -/
def utf8Dec4 (b0 : Nat) : List Nat → Str
  | b1 :: b2 :: b3 :: t4 =>
    if contB b1 && contB b2 && contB b3 then
      Char.ofNat ((b0 - 240) * 262144 + (b1 - 128) * 4096 + (b2 - 128) * 64 + (b3 - 128))
        :: utf8Dec t4
    else replChar :: utf8Dec t4
  | _ => [replChar]
end

/-- Does `s` begin with `pat`? -/
def startsWith : Str → Str → Bool
  | [], _ => true
  | _ :: _, [] => false
  | p :: ps, c :: cs => p = c && startsWith ps cs

/-- `String.prototype.indexOf` for a string pattern: index of the first
occurrence. -/
def findIdx? : Str → Str → Option Nat
  | [], pat => if startsWith pat [] then some 0 else none
  | c :: t, pat =>
    if startsWith pat (c :: t) then some 0 else (findIdx? t pat).map (· + 1)

/-- `String.prototype.replace` with a plain-string pattern: replace the
first occurrence only. -/
def replaceFirst (s pat repl : Str) : Str :=
  match findIdx? s pat with
  | none => s
  | some i => s.take i ++ repl ++ s.drop (i + pat.length)

/-- The pseudo key derivation `btoa(secret).slice(0, 32)` (src/crypto.ts);
fails when `btoa` throws on a non-Latin-1 secret. -/
def deriveKey (secret : Str) : Option Str := (btoaJS secret).map (List.take 32)

/-- `encrypt` (src/crypto.ts line 3): append the derived key, UTF-8 encode,
base64-encode.  The inner `btoa(String.fromCharCode(...cipher))` cannot
throw because UTF-8 bytes are below 256, so it is `b64Enc` directly. -/
def encrypt (text secret : Str) : Option Str :=
  (deriveKey secret).map (fun key => b64Enc (utf8Enc (text ++ key)))

/-- `decrypt` (src/crypto.ts line 9): base64-decode, UTF-8 decode, then
remove the *first* occurrence of the derived key (`buffer.replace(key, "")`). -/
def decrypt (encoded secret : Str) : Option Str :=
  match deriveKey secret with
  | none => none
  | some key =>
    match b64Dec encoded with
    | none => none
    | some bytes => some (replaceFirst (utf8Dec bytes) key [])

/-! ## Store configuration (src/types.ts) -/

/-- `StoreType`: which real browser storage area to prefer. -/
inductive StorageKind where
  | localArea : StorageKind
  | sessionArea : StorageKind
  deriving DecidableEq

/-- `StoreOptions` (src/types.ts): optional fields, `none` = field absent. -/
structure StoreOptions where
  storage : Option StorageKind := none
  encrypt : Option Bool := none
  obfuscate : Option Bool := none
  secret : Option Str := none
  autoCleanup : Option Bool := none
  deriving DecidableEq

/-- Truthiness of a possibly-absent boolean option. -/
def truthyOB : Option Bool → Bool
  | some b => b
  | none => false

/-- `shouldObfuscate = options.obfuscate || options.encrypt` (line 41). -/
def shouldObf (o : StoreOptions) : Bool := truthyOB o.obfuscate || truthyOB o.encrypt

/-- Truthiness of `options.secret` (an empty string is falsy). -/
def secretTruthy (o : StoreOptions) : Bool :=
  match o.secret with
  | some s => !s.isEmpty
  | none => false

/-- Is obfuscation actually applied (`shouldObfuscate && options.secret`)? -/
def effObf (o : StoreOptions) : Bool := shouldObf o && secretTruthy o

/-- Truthiness of `options.autoCleanup`. -/
def autoCleanupB (o : StoreOptions) : Bool := truthyOB o.autoCleanup

/-- A store constructed with no options: `createStore(ns)`. -/
def plainOpts : StoreOptions := {}

/-- `options.encrypt !== undefined` (line 33): was the one-time deprecation
warning for the `encrypt` option printed at construction? -/
def deprecationWarned (o : StoreOptions) : Bool := o.encrypt.isSome

/-! ## JavaScript value helpers used by the expiry check -/

/-- JavaScript truthiness of a JSON value. -/
def jtruthy : JValue → Bool
  | .null => false
  | .bool b => b
  | .num n => !(n == 0)
  | .str s => !s.isEmpty
  | .arr _ => true
  | .obj _ => true

/-- Truthiness of a possibly-`undefined` value. -/
def jtruthyO : Option JValue → Bool
  | some v => jtruthy v
  | none => false

/-- Leading/trailing-whitespace trim used by `Number(string)`. -/
def isWs (c : Char) : Bool :=
  c = ' ' || c.toNat = 9 || c.toNat = 10 || c.toNat = 13 || c.toNat = 12 || c.toNat = 11

/-- A digit-only string as a number, if it is one. -/
def digitsOnly (s : Str) : Option Nat :=
  match readDigits s with
  | ([], _) => none
  | (ds, []) => some (digsVal ds)
  | (_, _ :: _) => none

/-- `Number(string)` restricted to optionally-signed integer numerals
(`none` = NaN; other numeric syntaxes never occur in this development). -/
def strToNum (s : Str) : Option Int :=
  let t := (s.dropWhile isWs).reverse.dropWhile isWs |>.reverse
  if t.isEmpty then some 0
  else
    match t with
    | '-' :: r => (digitsOnly r).map (fun n => -(Int.ofNat n))
    | '+' :: r => (digitsOnly r).map Int.ofNat
    | _ => (digitsOnly t).map Int.ofNat

/-- JavaScript `ToNumber` on a parsed JSON value (`none` = NaN; array and
object coercion — unreachable from records the store writes — is
approximated as NaN). -/
def toNum : JValue → Option Int
  | .null => some 0
  | .bool b => some (if b then 1 else 0)
  | .num n => some n
  | .str s => strToNum s
  | .arr _ => none
  | .obj _ => none

/-- `Date.now() > x` for a possibly-`undefined` JavaScript value (`>` on NaN
is false). -/
def jgtO (now : Int) : Option JValue → Bool
  | some v =>
    match toNum v with
    | some x => decide (now > x)
    | none => false
  | none => false

/-- The `"value"` field name. -/
def valueKey : Str := "value".toList

/-- The `"expiry"` field name. -/
def expiryKey : Str := "expiry".toList

/-- The shared expiry test `parsed.expiry && Date.now() > parsed.expiry`
(lines 55 and 101). -/
def jexpired (now : Int) (parsed : JValue) : Bool :=
  jtruthyO (jfieldV parsed expiryKey) && jgtO now (jfieldV parsed expiryKey)

/-- Normalise a JavaScript return value `parsed.value` into the model's
`Option`-encoded result (`none` = the caller sees `null`/`undefined`). -/
def jret : Option JValue → Option JValue
  | some v => if v = .null then none else some v
  | none => none

/-! ## The store engine (src/store.ts) -/

namespace Store

/-- The namespace prefix `` `${namespace}::` `` (line 30). -/
def pre (ns : Str) : Str := ns ++ "::".toList

/-- The physical key for a logical key. -/
def pkey (ns k : Str) : Str := pre ns ++ k

/-- Strip the namespace prefix from a physical key, if it applies. -/
def stripPre (ns : Str) (s : Str) : Option Str :=
  if startsWith (pre ns) s then some (s.drop (pre ns).length) else none

/-- `getAllKeys` (line 65): logical keys of all physical keys under the
namespace prefix, in medium enumeration order. -/
def getAllKeys (ns : Str) (m : Medium) : List Str :=
  (m.map Prod.fst).filterMap (stripPre ns)

/-- The serialized entry `JSON.stringify({ value, expiry })`: the `expiry`
field is omitted when `undefined`. -/
def entryOf (v : JValue) : Option Int → JValue
  | none => .obj (.cons valueKey v .nil)
  | some e => .obj (.cons valueKey v (.cons expiryKey (.num e) .nil))

/-- `ttlSeconds ? Date.now() + ttlSeconds * 1000 : undefined` (line 77):
note that a ttl of `0` is falsy, so it produces no expiry at all. -/
def ttlExpiry (now : Int) : Option Int → Option Int
  | some t => if t = 0 then none else some (now + t * 1000)
  | none => none

/-- Write-side transformation: obfuscate the serialized entry when
requested and a (truthy) secret is present; `none` = `encrypt` threw. -/
def encodeRecord (o : StoreOptions) (raw : Str) : Option Str :=
  if effObf o then o.secret.bind (fun sec => encrypt raw sec) else some raw

/-- Read-side transformation and parse; `none` = any failure (caught by the
readers). -/
def decodeRecord (o : StoreOptions) (raw : Str) : Option JValue :=
  match (if effObf o then o.secret.bind (fun sec => decrypt raw sec) else some raw) with
  | none => none
  | some txt => jparse txt

/-- `set` (line 76).  `none` models the undocumented exception that escapes
when obfuscation is active and `btoa(secret)` throws. -/
def set (o : StoreOptions) (ns : Str) (now : Int) (m : Medium) (k : Str) (v : JValue)
    (ttl : Option Int) : Option Medium :=
  (encodeRecord o (jstrV (entryOf v (ttlExpiry now ttl)))).map (setItem m (pkey ns k))

/-- `remove` (line 114). -/
def remove (ns : Str) (m : Medium) (k : Str) : Medium := removeItem m (pkey ns k)

/-- `get` (line 87).  Returns `none` when the TypeError from reading
`parsed.expiry` on a JSON-`null` record escapes (that dereference happens
outside the try/catch); otherwise `some (result, medium)` where a `none`
result is JavaScript `null`/`undefined`. -/
def get (o : StoreOptions) (ns : Str) (now : Int) (m : Medium) (k : Str) :
    Option (Option JValue × Medium) :=
  match getItem m (pkey ns k) with
  | none => some (none, m)
  | some raw =>
    if raw.isEmpty then some (none, m)
    else
      match decodeRecord o raw with
      | none => some (none, m)
      | some parsed =>
        if parsed = .null then none
        else if jexpired now parsed then
          some (none, if autoCleanupB o then removeItem m (pkey ns k) else m)
        else some (jret (jfieldV parsed valueKey), m)

/-- One iteration of the cleanup loop (lines 47-62): re-read the record,
remove it when it is expired or when decoding (or the expiry dereference)
throws — all exceptions are caught here and lead to removal. -/
def cleanupStep (o : StoreOptions) (ns : Str) (now : Int) (m : Medium) (k : Str) : Medium :=
  match getItem m (pkey ns k) with
  | none => m
  | some raw =>
    if raw.isEmpty then m
    else
      match decodeRecord o raw with
      | none => removeItem m (pkey ns k)
      | some parsed =>
        if parsed = .null then removeItem m (pkey ns k)
        else if jexpired now parsed then removeItem m (pkey ns k) else m

/-- `cleanupExpired` (line 43): a no-op unless `autoCleanup`; otherwise the
key list is computed once up front and each key processed in order. -/
def cleanupExpired (o : StoreOptions) (ns : Str) (now : Int) (m : Medium) : Medium :=
  if autoCleanupB o then (getAllKeys ns m).foldl (cleanupStep o ns now) m else m

/-- `clear` (line 118): enumerate the namespace's keys first, then remove
each. -/
def clear (ns : Str) (m : Medium) : Medium :=
  (getAllKeys ns m).foldl (fun mm k => removeItem mm (pkey ns k)) m

/-- `has` (line 125): `get(key) !== null`, sharing `get`'s side effects and
its potential TypeError. -/
def has (o : StoreOptions) (ns : Str) (now : Int) (m : Medium) (k : Str) :
    Option (Bool × Medium) :=
  (get o ns now m k).map (fun r => (r.1.isSome, r.2))

/-- `keys` (line 129): just `getAllKeys`, no filtering, no cleanup. -/
def keys (ns : Str) (m : Medium) : List Str := getAllKeys ns m

/-- The collection loop of `getAll` (lines 139-144), threading the medium
through each `get`; an escaping `get` exception aborts `getAll`. -/
def getAllCollect (o : StoreOptions) (ns : Str) (now : Int) :
    List Str → List (Str × JValue) × Medium → Option (List (Str × JValue) × Medium)
  | [], acc => some acc
  | k :: ks, acc =>
    match get o ns now acc.2 k with
    | none => none
    | some (v, m2) =>
      getAllCollect o ns now ks
        (match v with
         | some vv => acc.1 ++ [(k, vv)]
         | none => acc.1, m2)

/-- `getAll` (line 133): cleanup pass (when enabled), then collect every
non-null `get`. -/
def getAll (o : StoreOptions) (ns : Str) (now : Int) (m : Medium) :
    Option (List (Str × JValue) × Medium) :=
  let m1 := cleanupExpired o ns now m
  getAllCollect o ns now (getAllKeys ns m1) ([], m1)

/-- `init` (line 149). -/
def init (o : StoreOptions) (ns : Str) (now : Int) (m : Medium) : Medium :=
  cleanupExpired o ns now m

end Store

/-! ## Auxiliary definitions used by the proofs -/

/-- Digit values produced by `natDigsAux` (most significant first). -/
def digsOfAux : Nat → Nat → List Nat
  | 0, _ => []
  | fuel + 1, n => if n < 10 then [n] else digsOfAux fuel (n / 10) ++ [n % 10]

/-- Does the string not start with a digit (so a digit run before it is
maximal)? -/
def headNotDig : Str → Bool
  | [] => true
  | c :: _ => !isDig c

/-- The condition under which one cleanup iteration removes a (nonempty)
record: decoding throws, the record is JSON `null` (the expiry dereference
throws), or the expiry test fires. -/
def recordBad (o : StoreOptions) (now : Int) (raw : Str) : Bool :=
  !raw.isEmpty &&
    (match Store.decodeRecord o raw with
     | none => true
     | some parsed => decide (parsed = JValue.null) || jexpired now parsed)

/-- An entry the cleanup pass deletes: in the namespace and bad. -/
def cleanRemovable (o : StoreOptions) (ns : Str) (now : Int) (kv : Str × Str) : Bool :=
  startsWith (Store.pre ns) kv.1 && recordBad o now kv.2

/-- Is the configured secret (if any) within `btoa`'s Latin-1 domain?  When
this fails and obfuscation is effective, `set` throws. -/
def secretLatin1 (o : StoreOptions) : Bool :=
  match o.secret with
  | some s => latin1 s
  | none => true

mutual
/-- Nesting depth of a JSON value: enough parser fuel to parse it, and at
most the length of its serialization. -/
def sizeV : JValue → Nat
  | .null => 1
  | .bool _ => 1
  | .num _ => 1
  | .str _ => 1
  | .arr xs => 1 + sizeA xs
  | .obj fs => 1 + sizeO fs
/-- Nesting depth of a JSON array body. -/
def sizeA : JArr → Nat
  | .nil => 1
  | .cons v tl => 1 + max (sizeV v) (sizeA tl)
/-- Nesting depth of a JSON object body. -/
def sizeO : JObj → Nat
  | .nil => 1
  | .cons _ v tl => 1 + max (sizeV v) (sizeO tl)
end

/-! # Proofs

## Character and string basics -/

theorem toNat_ofNat_valid (n : Nat) (h : n.isValidChar) : (Char.ofNat n).toNat = n := by
  unfold Char.ofNat
  rw [dif_pos h]
  simp [Char.ofNatAux, Char.toNat, UInt32.toNat]

theorem charToNat_inj {a b : Char} (h : a.toNat = b.toNat) : a = b :=
  Char.ext (UInt32.ext h)

theorem ofNat_toNat_char (c : Char) : Char.ofNat c.toNat = c :=
  charToNat_inj (toNat_ofNat_valid c.toNat c.valid)

theorem toNat_ofNat_small (n : Nat) (h : n < 55296) : (Char.ofNat n).toNat = n :=
  toNat_ofNat_valid n (Or.inl h)

theorem startsWith_append (p t : Str) : startsWith p (p ++ t) = true := by
  induction p with
  | nil => rfl
  | cons c cs ih => simp [startsWith, ih]

theorem startsWith_drop {p s : Str} (h : startsWith p s = true) :
    s = p ++ s.drop p.length := by
  induction p generalizing s with
  | nil => simp
  | cons c cs ih =>
    cases s with
    | nil => simp [startsWith] at h
    | cons c2 t =>
      simp only [startsWith, Bool.and_eq_true, decide_eq_true_eq] at h
      obtain ⟨rfl, h2⟩ := h
      simpa using ih h2

theorem startsWith_iff {p s : Str} : startsWith p s = true ↔ ∃ t, s = p ++ t := by
  constructor
  · exact fun h => ⟨s.drop p.length, startsWith_drop h⟩
  · rintro ⟨t, rfl⟩; exact startsWith_append p t

/-! ## Medium lemmas -/

theorem getItem_setItem_self (m : Medium) (k v) : getItem (setItem m k v) k = some v := by
  induction m with
  | nil => simp [setItem, getItem]
  | cons kv t ih =>
    obtain ⟨k0, v0⟩ := kv
    by_cases h : k0 = k
    · simp [setItem, h, getItem]
    · simp [setItem, h, getItem, ih]

theorem getItem_setItem_other (m : Medium) {k k2 : Str} (v) (h : k2 ≠ k) :
    getItem (setItem m k v) k2 = getItem m k2 := by
  induction m with
  | nil => simp [setItem, getItem, Ne.symm h]
  | cons kv t ih =>
    obtain ⟨k0, v0⟩ := kv
    by_cases h0 : k0 = k
    · subst h0
      have hne : k0 ≠ k2 := fun hh => h hh.symm
      simp [setItem, getItem, hne]
    · simp [setItem, h0, getItem, ih]

theorem removeItem_eq_filter (m : Medium) (k : Str) :
    removeItem m k = m.filter (fun kv => kv.1 ≠ k) := by
  induction m with
  | nil => rfl
  | cons kv0 t ih =>
    obtain ⟨k0, v0⟩ := kv0
    by_cases h : k0 = k
    · simp [removeItem, h, List.filter_cons, ih]
    · simp [removeItem, h, List.filter_cons, ih]

theorem mem_removeItem {m : Medium} {k : Str} {kv : Str × Str} :
    kv ∈ removeItem m k ↔ kv ∈ m ∧ kv.1 ≠ k := by
  rw [removeItem_eq_filter]
  simp [List.mem_filter]

theorem getItem_removeItem_self (m : Medium) (k) : getItem (removeItem m k) k = none := by
  induction m with
  | nil => simp [removeItem, getItem]
  | cons kv t ih =>
    obtain ⟨k0, v0⟩ := kv
    by_cases h : k0 = k
    · simp [removeItem, h, ih]
    · simp [removeItem, h, getItem, h, ih]

theorem getItem_removeItem_other (m : Medium) {k k2 : Str} (h : k2 ≠ k) :
    getItem (removeItem m k) k2 = getItem m k2 := by
  induction m with
  | nil => simp [removeItem]
  | cons kv t ih =>
    obtain ⟨k0, v0⟩ := kv
    by_cases h0 : k0 = k
    · subst h0
      have hne : k0 ≠ k2 := fun hh => h hh.symm
      simp [removeItem, getItem, hne, ih]
    · by_cases h2 : k0 = k2
      · simp [removeItem, h0, getItem, h2, h, ih]
      · simp [removeItem, h0, getItem, h2, ih]

theorem getItem_eq_none_iff {m : Medium} {k : Str} :
    getItem m k = none ↔ k ∉ m.map Prod.fst := by
  induction m with
  | nil => simp [getItem]
  | cons kv t ih =>
    obtain ⟨k0, v0⟩ := kv
    by_cases h : k0 = k
    · subst h
      simp [getItem]
    · simp only [getItem, if_neg h, ih, List.map_cons, List.mem_cons]
      constructor
      · intro hn
        rintro (rfl | hm)
        · exact h rfl
        · exact hn hm
      · intro hn hm
        exact hn (Or.inr hm)

theorem getItem_isSome_iff {m : Medium} {k : Str} :
    (getItem m k).isSome = true ↔ k ∈ m.map Prod.fst := by
  rw [Option.isSome_iff_ne_none]
  constructor
  · intro h
    by_contra hmem
    exact h (getItem_eq_none_iff.mpr hmem)
  · intro h hnone
    exact (getItem_eq_none_iff.mp hnone) h

theorem getItem_mem {m : Medium} {k : Str} {v : Str} (h : getItem m k = some v) :
    (k, v) ∈ m := by
  induction m with
  | nil => simp [getItem] at h
  | cons kv t ih =>
    obtain ⟨k0, v0⟩ := kv
    by_cases h0 : k0 = k
    · subst h0
      simp [getItem] at h
      simp [h]
    · simp only [getItem, if_neg h0] at h
      exact List.mem_cons_of_mem _ (ih h)

theorem mem_getItem {m : Medium} {kv : Str × Str} (hWF : mediumWF m) (h : kv ∈ m) :
    getItem m kv.1 = some kv.2 := by
  induction m with
  | nil => simp at h
  | cons kv0 t ih =>
    obtain ⟨k0, v0⟩ := kv0
    unfold mediumWF at hWF
    simp only [List.map_cons, List.nodup_cons] at hWF
    rcases List.mem_cons.mp h with rfl | hmem
    · simp [getItem]
    · have hk : k0 ≠ kv.1 := by
        intro hh
        have : kv.1 ∈ t.map Prod.fst := List.mem_map_of_mem Prod.fst hmem
        rw [← hh] at this
        exact hWF.1 this
      simp only [getItem, if_neg hk]
      exact ih hWF.2 hmem

theorem mediumWF_removeItem {m : Medium} (k : Str) (hWF : mediumWF m) :
    mediumWF (removeItem m k) := by
  rw [removeItem_eq_filter]
  unfold mediumWF at *
  exact List.Nodup.sublist ((List.filter_sublist m).map Prod.fst) hWF

/-! ## Namespace mapping lemmas -/

theorem stripPre_eq_some {ns s k : Str} :
    Store.stripPre ns s = some k ↔ s = Store.pkey ns k := by
  unfold Store.stripPre Store.pkey
  constructor
  · intro h
    by_cases hs : startsWith (Store.pre ns) s = true
    · rw [if_pos hs] at h
      obtain ⟨t, rfl⟩ := startsWith_iff.mp hs
      simp at h
      rw [← h]
    · rw [if_neg hs] at h
      simp at h
  · rintro rfl
    rw [if_pos (startsWith_append _ _)]
    simp

theorem pkey_inj {ns k k2 : Str} (h : Store.pkey ns k = Store.pkey ns k2) : k = k2 := by
  unfold Store.pkey at h
  exact List.append_cancel_left h

theorem mem_getAllKeys {ns : Str} {m : Medium} {k : Str} :
    k ∈ Store.getAllKeys ns m ↔ Store.pkey ns k ∈ m.map Prod.fst := by
  unfold Store.getAllKeys
  rw [List.mem_filterMap]
  constructor
  · rintro ⟨a, ha, hstrip⟩
    rw [stripPre_eq_some] at hstrip
    rwa [hstrip] at ha
  · intro h
    exact ⟨Store.pkey ns k, h, stripPre_eq_some.mpr rfl⟩

theorem nodup_getAllKeys {ns : Str} {m : Medium} (hWF : mediumWF m) :
    (Store.getAllKeys ns m).Nodup := by
  unfold Store.getAllKeys
  apply List.Nodup.filterMap _ hWF
  intro a1 a2 b h1 h2
  rw [Option.mem_def, stripPre_eq_some] at h1 h2
  rw [h1, h2]

theorem mem_map_pkey_getAllKeys {ns : Str} {m : Medium} {K : Str} :
    K ∈ (Store.getAllKeys ns m).map (Store.pkey ns) ↔
      startsWith (Store.pre ns) K = true ∧ K ∈ m.map Prod.fst := by
  rw [List.mem_map]
  constructor
  · rintro ⟨k, hk, rfl⟩
    exact ⟨startsWith_append _ _, mem_getAllKeys.mp hk⟩
  · rintro ⟨hsw, hmem⟩
    obtain ⟨t, rfl⟩ := startsWith_iff.mp hsw
    exact ⟨t, mem_getAllKeys.mpr hmem, rfl⟩

/-! ## Digits and number parsing -/

theorem toNat_digitChar (d : Nat) (h : d < 10) : (digitChar d).toNat = 48 + d :=
  toNat_ofNat_small _ (by omega)

theorem isDig_digitChar (d : Nat) (h : d < 10) : isDig (digitChar d) = true := by
  simp [isDig, toNat_digitChar d h]
  omega

theorem readDigits_notdig {rest : Str} (h : headNotDig rest = true) :
    readDigits rest = ([], rest) := by
  cases rest with
  | nil => rfl
  | cons c t =>
    simp only [headNotDig, Bool.not_eq_eq_eq_not, Bool.not_true] at h
    simp [readDigits, h]

theorem readDigits_digit_cons (d : Nat) (h : d < 10) (rest : Str) :
    readDigits (digitChar d :: rest) = (d :: (readDigits rest).1, (readDigits rest).2) := by
  simp [readDigits, isDig_digitChar d h, toNat_digitChar d h]

theorem readDigits_natDigsAux (fuel : Nat) :
    ∀ (n : Nat), n < fuel → ∀ (rest : Str),
      readDigits (natDigsAux fuel n ++ rest) =
        (digsOfAux fuel n ++ (readDigits rest).1, (readDigits rest).2) := by
  induction fuel with
  | zero => omega
  | succ fuel ih =>
    intro n hn rest
    by_cases h10 : n < 10
    · simp only [natDigsAux, if_pos h10, digsOfAux, List.cons_append, List.nil_append]
      rw [readDigits_digit_cons n h10]
    · have hdiv : n / 10 < fuel := by omega
      simp only [natDigsAux, if_neg h10, digsOfAux, List.append_assoc, List.cons_append,
        List.nil_append]
      rw [ih (n / 10) hdiv (digitChar (n % 10) :: rest)]
      rw [readDigits_digit_cons (n % 10) (by omega) rest]

theorem digsVal_append_single (ds : List Nat) (d : Nat) :
    digsVal (ds ++ [d]) = 10 * digsVal ds + d := by
  unfold digsVal
  rw [List.foldl_append]
  rfl

theorem digsVal_digsOfAux (fuel : Nat) :
    ∀ (n : Nat), n < fuel → digsVal (digsOfAux fuel n) = n := by
  induction fuel with
  | zero => omega
  | succ fuel ih =>
    intro n hn
    by_cases h10 : n < 10
    · simp [digsOfAux, h10, digsVal]
    · have hdiv : n / 10 < fuel := by omega
      simp only [digsOfAux, if_neg h10]
      rw [digsVal_append_single, ih (n / 10) hdiv]
      omega

theorem natDigsAux_head (fuel : Nat) :
    ∀ (n : Nat), n < fuel → ∃ d t, natDigsAux fuel n = digitChar d :: t ∧ d < 10 := by
  induction fuel with
  | zero => omega
  | succ fuel ih =>
    intro n hn
    by_cases h10 : n < 10
    · exact ⟨n, [], by simp [natDigsAux, h10], h10⟩
    · have hdiv : n / 10 < fuel := by omega
      obtain ⟨d, t, heq, hd⟩ := ih (n / 10) hdiv
      exact ⟨d, t ++ [digitChar (n % 10)], by simp [natDigsAux, h10, heq], hd⟩

theorem parseVal_digit_head (fuel : Nat) (c : Char) (r : Str) (hc : isDig c = true) :
    parseVal (fuel + 1) (c :: r) =
      some (.num (Int.ofNat (digsVal (readDigits (c :: r)).1)), (readDigits (c :: r)).2) := by
  have hn : 48 ≤ c.toNat ∧ c.toNat ≤ 57 := by
    simpa [isDig] using hc
  rw [parseVal.eq_def]
  split
  · omega
  · rename_i s heq2
    injection heq2 with hfuel
    subst hfuel
    split
    · rename_i heq
      injection heq with h1 _
      subst h1
      exact absurd hn (by decide)
    · rename_i heq
      injection heq with h1 _
      subst h1
      exact absurd hn (by decide)
    · rename_i heq
      injection heq with h1 _
      subst h1
      exact absurd hn (by decide)
    · rename_i heq
      injection heq with h1 _
      subst h1
      exact absurd hn (by decide)
    · rename_i heq
      injection heq with h1 _
      subst h1
      exact absurd hn (by decide)
    · rename_i heq
      injection heq with h1 _
      subst h1
      exact absurd hn (by decide)
    · rename_i heq
      injection heq with h1 _
      subst h1
      exact absurd hn (by decide)
    · rename_i c2 r2 heq
      injection heq with h1 h2
      subst h1
      subst h2
      rw [if_pos hc]
    · rename_i heq
      cases heq

theorem digsOfAux_ne_nil (fuel n : Nat) (h : n < fuel) : digsOfAux fuel n ≠ [] := by
  cases fuel with
  | zero => omega
  | succ fuel =>
    by_cases h10 : n < 10
    · simp [digsOfAux, h10]
    · simp [digsOfAux, h10]

theorem natDigs_cons_append (n : Nat) (rest : Str) :
    ∃ d t, d < 10 ∧ natDigs n ++ rest = digitChar d :: t ∧
      digitChar d :: t = natDigs n ++ rest := by
  obtain ⟨d, t, heq, hd⟩ := natDigsAux_head (n + 1) n (by omega)
  refine ⟨d, t ++ rest, hd, ?_, ?_⟩
  · rw [natDigs, heq]
    simp
  · rw [natDigs, heq]
    simp

theorem readDigits_natDigs (n : Nat) (rest : Str) (hrest : headNotDig rest = true) :
    readDigits (natDigs n ++ rest) = (digsOfAux (n + 1) n, rest) := by
  rw [natDigs, readDigits_natDigsAux (n + 1) n (by omega) rest, readDigits_notdig hrest]
  simp

theorem parseVal_natDigs (fuel n : Nat) (rest : Str) (hrest : headNotDig rest = true) :
    parseVal (fuel + 1) (natDigs n ++ rest) = some (.num (Int.ofNat n), rest) := by
  obtain ⟨d, t, hd, heq, heq2⟩ := natDigs_cons_append n rest
  rw [heq, parseVal_digit_head fuel (digitChar d) t (isDig_digitChar d hd), heq2,
    readDigits_natDigs n rest hrest, digsVal_digsOfAux (n + 1) n (by omega)]

theorem parseVal_intStr (fuel : Nat) (n : Int) (rest : Str) (hrest : headNotDig rest = true) :
    parseVal (fuel + 1) (intStr n ++ rest) = some (.num n, rest) := by
  by_cases hneg : n < 0
  · simp only [intStr, if_pos hneg, List.cons_append]
    simp only [parseVal]
    rw [readDigits_natDigs n.natAbs rest hrest]
    rcases hds : digsOfAux (n.natAbs + 1) n.natAbs with _ | ⟨d, ds⟩
    · exact absurd hds (digsOfAux_ne_nil _ _ (by omega))
    · have hval : digsVal (d :: ds) = n.natAbs := by
        rw [← hds, digsVal_digsOfAux (n.natAbs + 1) n.natAbs (by omega)]
      have h2 : -((digsVal (d :: ds) : Int)) = n := by
        rw [hval]
        omega
      simp [h2]
  · simp only [intStr, if_neg hneg]
    rw [parseVal_natDigs fuel n.natAbs rest hrest]
    have h2 : Int.ofNat n.natAbs = n := by
      rw [Int.ofNat_eq_natCast]
      omega
    rw [h2]

/-! ## String literal round trip -/

theorem hexVal_hexDig (n : Nat) (h : n < 16) : hexVal (hexDig n) = some n := by
  by_cases h10 : n < 10
  · have ht : (Char.ofNat (48 + n)).toNat = 48 + n := toNat_ofNat_small _ (by omega)
    rw [hexDig, if_pos h10]
    rw [hexVal, if_pos (by omega)]
    simp [ht]
  · have ht : (Char.ofNat (87 + n)).toNat = 87 + n := toNat_ofNat_small _ (by omega)
    rw [hexDig, if_neg h10]
    rw [hexVal, if_neg (by rw [ht]; omega), if_pos (by rw [ht]; omega)]
    simp [ht]

theorem parseStrBody_escBody (s : Str) : ∀ rest : Str,
    parseStrBody (escBody s ++ ('"' :: rest)) = some (s, rest) := by
  induction s with
  | nil =>
    intro rest
    rw [escBody, List.nil_append, parseStrBody.eq_def]
    simp
  | cons c t ih =>
    intro rest
    simp only [escBody, List.append_assoc]
    by_cases h1 : c = '"'
    · subst h1
      rw [escChar, if_pos rfl, List.cons_append, List.cons_append, List.nil_append,
        parseStrBody.eq_def]
      simp [ih]
    · by_cases h2 : c = '\\'
      · subst h2
        rw [escChar, if_neg (by decide), if_pos rfl, List.cons_append, List.cons_append,
          List.nil_append, parseStrBody.eq_def]
        simp [ih]
      · by_cases h3 : c.toNat = 8
        · have hc : Char.ofNat 8 = c := by rw [← h3, ofNat_toNat_char]
          rw [escChar, if_neg h1, if_neg h2, if_pos h3, List.cons_append, List.cons_append,
            List.nil_append, parseStrBody.eq_def]
          simp [ih]
          exact hc
        · by_cases h4 : c.toNat = 9
          · have hc : Char.ofNat 9 = c := by rw [← h4, ofNat_toNat_char]
            rw [escChar, if_neg h1, if_neg h2, if_neg h3, if_pos h4, List.cons_append,
              List.cons_append, List.nil_append, parseStrBody.eq_def]
            simp [ih]
            exact hc
          · by_cases h5 : c.toNat = 10
            · have hc : Char.ofNat 10 = c := by rw [← h5, ofNat_toNat_char]
              rw [escChar, if_neg h1, if_neg h2, if_neg h3, if_neg h4, if_pos h5,
                List.cons_append, List.cons_append, List.nil_append, parseStrBody.eq_def]
              simp [ih]
              exact hc
            · by_cases h6 : c.toNat = 12
              · have hc : Char.ofNat 12 = c := by rw [← h6, ofNat_toNat_char]
                rw [escChar, if_neg h1, if_neg h2, if_neg h3, if_neg h4, if_neg h5, if_pos h6,
                  List.cons_append, List.cons_append, List.nil_append, parseStrBody.eq_def]
                simp [ih]
                exact hc
              · by_cases h7 : c.toNat = 13
                · have hc : Char.ofNat 13 = c := by rw [← h7, ofNat_toNat_char]
                  rw [escChar, if_neg h1, if_neg h2, if_neg h3, if_neg h4, if_neg h5, if_neg h6,
                    if_pos h7, List.cons_append, List.cons_append, List.nil_append,
                    parseStrBody.eq_def]
                  simp [ih]
                  exact hc
                · by_cases h8 : c.toNat < 32
                  · have hhi : hexVal (hexDig (c.toNat / 16)) = some (c.toNat / 16) :=
                      hexVal_hexDig _ (by omega)
                    have hlo : hexVal (hexDig (c.toNat % 16)) = some (c.toNat % 16) :=
                      hexVal_hexDig _ (by omega)
                    have hch : Char.ofNat (16 * (c.toNat / 16) + c.toNat % 16) = c := by
                      rw [show 16 * (c.toNat / 16) + c.toNat % 16 = c.toNat from by omega,
                        ofNat_toNat_char]
                    rw [escChar, if_neg h1, if_neg h2, if_neg h3, if_neg h4, if_neg h5,
                      if_neg h6, if_neg h7, if_pos h8]
                    simp only [List.cons_append, List.nil_append]
                    rw [parseStrBody.eq_def]
                    simp [hhi, hlo, hch, show hexVal '0' = some 0 from rfl, ih]
                  · rw [escChar, if_neg h1, if_neg h2, if_neg h3, if_neg h4, if_neg h5,
                      if_neg h6, if_neg h7, if_neg h8]
                    simp only [List.cons_append, List.nil_append]
                    rw [parseStrBody.eq_def]
                    simp [h1, h2, h8, ih]

/-! ## Full parser inversion -/

theorem jstrV_head_ne_rbracket (v : JValue) :
    ∃ c t2, jstrV v = c :: t2 ∧ ¬c = ']' := by
  cases v with
  | null => exact ⟨'n', ['u', 'l', 'l'], rfl, by decide⟩
  | bool b =>
    cases b with
    | true => exact ⟨'t', ['r', 'u', 'e'], rfl, by decide⟩
    | false => exact ⟨'f', ['a', 'l', 's', 'e'], rfl, by decide⟩
  | num n =>
    by_cases hneg : n < 0
    · exact ⟨'-', natDigs n.natAbs, by simp [jstrV, intStr, hneg], by decide⟩
    · obtain ⟨d, t, heq, hd⟩ := natDigsAux_head (n.natAbs + 1) n.natAbs (by omega)
      refine ⟨digitChar d, t, by simp [jstrV, intStr, hneg, natDigs, heq], ?_⟩
      intro hc
      have h2 := congrArg Char.toNat hc
      rw [toNat_digitChar d hd, show (']' : Char).toNat = 93 from rfl] at h2
      omega
  | str s => exact ⟨'"', escBody s ++ ['"'], rfl, by decide⟩
  | arr xs => exact ⟨'[', jstrA xs, rfl, by decide⟩
  | obj fs => exact ⟨'{', jstrO fs, rfl, by decide⟩

theorem headNotDig_jstrAMore (tl : JArr) (rest : Str) :
    headNotDig (jstrAMore tl ++ rest) = true := by
  cases tl <;> rfl

theorem headNotDig_jstrOMore (tl : JObj) (rest : Str) :
    headNotDig (jstrOMore tl ++ rest) = true := by
  cases tl <;> rfl

theorem sizeV_pos (v : JValue) : 1 ≤ sizeV v := by
  cases v <;> simp [sizeV]

theorem sizeA_pos (xs : JArr) : 1 ≤ sizeA xs := by
  cases xs with
  | nil => simp [sizeA]
  | cons v tl => simp only [sizeA]; omega

theorem sizeO_pos (fs : JObj) : 1 ≤ sizeO fs := by
  cases fs with
  | nil => simp [sizeO]
  | cons k v tl => simp only [sizeO]; omega

theorem parse_inv (fuel : Nat) :
    (∀ (v : JValue) (rest : Str), sizeV v ≤ fuel → headNotDig rest = true →
        parseVal fuel (jstrV v ++ rest) = some (v, rest)) ∧
    (∀ (xs : JArr) (rest : Str), sizeA xs ≤ fuel →
        parseArrRest fuel (jstrA xs ++ rest) = some (xs, rest)) ∧
    (∀ (xs : JArr) (rest : Str), sizeA xs ≤ fuel →
        parseArrMore fuel (jstrAMore xs ++ rest) = some (xs, rest)) ∧
    (∀ (fs : JObj) (rest : Str), sizeO fs ≤ fuel →
        parseObjRest fuel (jstrO fs ++ rest) = some (fs, rest)) ∧
    (∀ (fs : JObj) (rest : Str), sizeO fs ≤ fuel →
        parseObjMore fuel (jstrOMore fs ++ rest) = some (fs, rest)) := by
  induction fuel with
  | zero =>
    refine ⟨?_, ?_, ?_, ?_, ?_⟩
    · intro v rest h _
      have := sizeV_pos v
      omega
    · intro xs rest h
      have := sizeA_pos xs
      omega
    · intro xs rest h
      have := sizeA_pos xs
      omega
    · intro fs rest h
      have := sizeO_pos fs
      omega
    · intro fs rest h
      have := sizeO_pos fs
      omega
  | succ fuel ih =>
    obtain ⟨ihV, ihA, ihAM, ihO, ihOM⟩ := ih
    refine ⟨?_, ?_, ?_, ?_, ?_⟩
    · intro v rest hsize hrest
      cases v with
      | null =>
        show parseVal (fuel + 1) ('n' :: 'u' :: 'l' :: 'l' :: rest) = some (.null, rest)
        simp [parseVal]
      | bool b =>
        cases b with
        | true =>
          show parseVal (fuel + 1) ('t' :: 'r' :: 'u' :: 'e' :: rest) = some (.bool true, rest)
          simp [parseVal]
        | false =>
          show parseVal (fuel + 1) ('f' :: 'a' :: 'l' :: 's' :: 'e' :: rest)
              = some (.bool false, rest)
          simp [parseVal]
      | num n =>
        show parseVal (fuel + 1) (intStr n ++ rest) = some (.num n, rest)
        exact parseVal_intStr fuel n rest hrest
      | str s =>
        show parseVal (fuel + 1) ('"' :: ((escBody s ++ ['"']) ++ rest)) = some (.str s, rest)
        rw [List.append_assoc, List.singleton_append]
        simp [parseVal, parseStrBody_escBody s rest]
      | arr xs =>
        show parseVal (fuel + 1) ('[' :: (jstrA xs ++ rest)) = some (.arr xs, rest)
        have hs : sizeA xs ≤ fuel := by
          simp only [sizeV] at hsize
          omega
        simp [parseVal, ihA xs rest hs]
      | obj fs =>
        show parseVal (fuel + 1) ('{' :: (jstrO fs ++ rest)) = some (.obj fs, rest)
        have hs : sizeO fs ≤ fuel := by
          simp only [sizeV] at hsize
          omega
        simp [parseVal, ihO fs rest hs]
    · intro xs rest hsize
      cases xs with
      | nil =>
        show parseArrRest (fuel + 1) (']' :: rest) = some (.nil, rest)
        simp [parseArrRest]
      | cons v tl =>
        have hsv : sizeV v ≤ fuel := by
          simp only [sizeA] at hsize
          omega
        have hst : sizeA tl ≤ fuel := by
          simp only [sizeA] at hsize
          omega
        show parseArrRest (fuel + 1) ((jstrV v ++ jstrAMore tl) ++ rest) = some (.cons v tl, rest)
        rw [List.append_assoc]
        obtain ⟨c, t2, heqv, hcne⟩ := jstrV_head_ne_rbracket v
        rw [parseArrRest.eq_def]
        split
        · omega
        · rename_i f2 heqf
          injection heqf with hf
          subst hf
          split
          · rename_i r heq
            rw [heqv, List.cons_append] at heq
            injection heq with hc _
            exact absurd hc hcne
          · rw [ihV v (jstrAMore tl ++ rest) hsv (headNotDig_jstrAMore tl rest)]
            simp [ihAM tl rest hst]
    · intro xs rest hsize
      cases xs with
      | nil =>
        show parseArrMore (fuel + 1) (']' :: rest) = some (.nil, rest)
        simp [parseArrMore]
      | cons v tl =>
        have hsv : sizeV v ≤ fuel := by
          simp only [sizeA] at hsize
          omega
        have hst : sizeA tl ≤ fuel := by
          simp only [sizeA] at hsize
          omega
        show parseArrMore (fuel + 1) (',' :: ((jstrV v ++ jstrAMore tl) ++ rest))
            = some (.cons v tl, rest)
        rw [List.append_assoc]
        simp only [parseArrMore]
        rw [ihV v (jstrAMore tl ++ rest) hsv (headNotDig_jstrAMore tl rest)]
        simp [ihAM tl rest hst]
    · intro fs rest hsize
      cases fs with
      | nil =>
        show parseObjRest (fuel + 1) ('}' :: rest) = some (.nil, rest)
        simp [parseObjRest]
      | cons k v tl =>
        have hsv : sizeV v ≤ fuel := by
          simp only [sizeO] at hsize
          omega
        have hst : sizeO tl ≤ fuel := by
          simp only [sizeO] at hsize
          omega
        show parseObjRest (fuel + 1)
            (('"' :: (escBody k ++ ['"']) ++ (':' :: (jstrV v ++ jstrOMore tl))) ++ rest)
            = some (.cons k v tl, rest)
        simp only [List.cons_append, List.append_assoc, List.singleton_append, List.nil_append]
        simp only [parseObjRest]
        rw [parseStrBody_escBody k (':' :: (jstrV v ++ (jstrOMore tl ++ rest)))]
        simp only []
        rw [ihV v (jstrOMore tl ++ rest) hsv (headNotDig_jstrOMore tl rest)]
        simp [ihOM tl rest hst]
    · intro fs rest hsize
      cases fs with
      | nil =>
        show parseObjMore (fuel + 1) ('}' :: rest) = some (.nil, rest)
        simp [parseObjMore]
      | cons k v tl =>
        have hsv : sizeV v ≤ fuel := by
          simp only [sizeO] at hsize
          omega
        have hst : sizeO tl ≤ fuel := by
          simp only [sizeO] at hsize
          omega
        show parseObjMore (fuel + 1)
            (',' :: (('"' :: (escBody k ++ ['"']) ++ (':' :: (jstrV v ++ jstrOMore tl))) ++ rest))
            = some (.cons k v tl, rest)
        simp only [List.cons_append, List.append_assoc, List.singleton_append, List.nil_append]
        simp only [parseObjMore]
        rw [parseStrBody_escBody k (':' :: (jstrV v ++ (jstrOMore tl ++ rest)))]
        simp only []
        rw [ihV v (jstrOMore tl ++ rest) hsv (headNotDig_jstrOMore tl rest)]
        simp [ihOM tl rest hst]

theorem jstrV_len_pos (v : JValue) : 1 ≤ (jstrV v).length := by
  obtain ⟨c, t2, heq, _⟩ := jstrV_head_ne_rbracket v
  simp [heq]

mutual
theorem sizeV_le_len : ∀ v : JValue, sizeV v ≤ (jstrV v).length
  | .null => by simp [sizeV, jstrV]
  | .bool b => by cases b <;> simp [sizeV, jstrV]
  | .num n => by
    have h := jstrV_len_pos (.num n)
    simp only [sizeV]
    omega
  | .str s => by
    simp only [sizeV, jstrV, strLit, List.length_cons]
    omega
  | .arr xs => by
    have h := (sizeA_le_len xs).1
    simp only [sizeV, jstrV, List.length_cons]
    omega
  | .obj fs => by
    have h := (sizeO_le_len fs).1
    simp only [sizeV, jstrV, List.length_cons]
    omega
theorem sizeA_le_len : ∀ xs : JArr,
    sizeA xs ≤ (jstrA xs).length ∧ sizeA xs ≤ (jstrAMore xs).length
  | .nil => by simp [sizeA, jstrA, jstrAMore]
  | .cons v tl => by
    have hv := sizeV_le_len v
    have ht := (sizeA_le_len tl).2
    have hv1 := jstrV_len_pos v
    have ht1 := sizeA_pos tl
    simp only [sizeA, jstrA, jstrAMore, List.length_append, List.length_cons]
    omega
theorem sizeO_le_len : ∀ fs : JObj,
    sizeO fs ≤ (jstrO fs).length ∧ sizeO fs ≤ (jstrOMore fs).length
  | .nil => by simp [sizeO, jstrO, jstrOMore]
  | .cons k v tl => by
    have hv := sizeV_le_len v
    have ht := (sizeO_le_len tl).2
    have ht1 := sizeO_pos tl
    simp only [sizeO, jstrO, jstrOMore, strLit, List.length_append, List.length_cons]
    omega
end

/-- `JSON.parse` inverts `JSON.stringify` on the modelled JSON fragment. -/
theorem jparse_jstrV (v : JValue) : jparse (jstrV v) = some v := by
  unfold jparse
  have hfuel : sizeV v ≤ (jstrV v).length + 1 := le_trans (sizeV_le_len v) (by omega)
  have h := (parse_inv ((jstrV v).length + 1)).1 v [] hfuel rfl
  rw [List.append_nil] at h
  rw [h]

/-! ## Base64 round trip -/

theorem b64Idx_b64Chr (n : Nat) (h : n < 64) : b64Idx (b64Chr n) = some n := by
  have hfin : ∀ m : Fin 64, b64Idx (b64Chr m.val) = some m.val := by decide
  exact hfin ⟨n, h⟩

theorem b64Chr_ne_pad (n : Nat) (h : n < 64) : ¬b64Chr n = '=' := by
  have hfin : ∀ m : Fin 64, ¬b64Chr m.val = '=' := by decide
  exact hfin ⟨n, h⟩

theorem b64Dec_b64Enc : ∀ bs : List Nat, (∀ b ∈ bs, b < 256) →
    b64Dec (b64Enc bs) = some bs
  | [] => by
    intro _
    rfl
  | [b0] => by
    intro h
    have hb0 : b0 < 256 := h b0 (by simp)
    rw [show b64Enc [b0] = [b64Chr (b0 / 4), b64Chr (b0 % 4 * 16), '=', '='] from rfl]
    rw [b64Dec.eq_def]
    simp only [b64Idx_b64Chr (b0 / 4) (by omega), b64Idx_b64Chr (b0 % 4 * 16) (by omega)]
    norm_num
    omega
  | [b0, b1] => by
    intro h
    have hb0 : b0 < 256 := h b0 (by simp)
    have hb1 : b1 < 256 := h b1 (by simp)
    rw [show b64Enc [b0, b1] =
      [b64Chr (b0 / 4), b64Chr (b0 % 4 * 16 + b1 / 16), b64Chr (b1 % 16 * 4), '='] from rfl]
    rw [b64Dec.eq_def]
    simp only [b64Idx_b64Chr (b0 / 4) (by omega),
      b64Idx_b64Chr (b0 % 4 * 16 + b1 / 16) (by omega),
      b64Idx_b64Chr (b1 % 16 * 4) (by omega),
      if_neg (b64Chr_ne_pad (b1 % 16 * 4) (by omega))]
    norm_num
    constructor
    · omega
    · omega
  | b0 :: b1 :: b2 :: rest => by
    intro h
    have hb0 : b0 < 256 := h b0 (by simp)
    have hb1 : b1 < 256 := h b1 (by simp)
    have hb2 : b2 < 256 := h b2 (by simp)
    have ih := b64Dec_b64Enc rest (fun b hb => h b (by simp [hb, List.mem_cons]))
    rw [show b64Enc (b0 :: b1 :: b2 :: rest) =
      b64Chr (b0 / 4) :: b64Chr (b0 % 4 * 16 + b1 / 16) ::
        b64Chr (b1 % 16 * 4 + b2 / 64) :: b64Chr (b2 % 64) :: b64Enc rest from rfl]
    rw [b64Dec.eq_def]
    simp only [b64Idx_b64Chr (b0 / 4) (by omega),
      b64Idx_b64Chr (b0 % 4 * 16 + b1 / 16) (by omega),
      b64Idx_b64Chr (b1 % 16 * 4 + b2 / 64) (by omega),
      b64Idx_b64Chr (b2 % 64) (by omega),
      if_neg (b64Chr_ne_pad (b1 % 16 * 4 + b2 / 64) (by omega)),
      if_neg (b64Chr_ne_pad (b2 % 64) (by omega)), ih]
    norm_num
    refine ⟨by omega, by omega, by omega⟩

/-! ## UTF-8 round trip -/

theorem utf8EncChar_lt_256 (c : Char) : ∀ b ∈ utf8EncChar c, b < 256 := by
  intro b hb
  unfold utf8EncChar at hb
  by_cases h1 : c.toNat < 128
  · simp [h1] at hb
    omega
  · by_cases h2 : c.toNat < 2048
    · simp [h1, h2] at hb
      rcases hb with rfl | rfl <;> omega
    · by_cases h3 : c.toNat < 65536
      · simp [h1, h2, h3] at hb
        rcases hb with rfl | rfl | rfl <;> omega
      · have h4 : c.toNat < 1114112 := by
          rcases c.valid with h | h
          · exact Nat.lt_trans h (by norm_num)
          · exact h.2
        simp [h1, h2, h3] at hb
        rcases hb with rfl | rfl | rfl | rfl <;> omega

theorem utf8Enc_lt_256 (s : Str) : ∀ b ∈ utf8Enc s, b < 256 := by
  induction s with
  | nil => simp [utf8Enc]
  | cons c t ih =>
    intro b hb
    simp only [utf8Enc, List.mem_append] at hb
    rcases hb with hb | hb
    · exact utf8EncChar_lt_256 c b hb
    · exact ih b hb

theorem utf8Dec_encChar_append (c : Char) (rest : List Nat) :
    utf8Dec (utf8EncChar c ++ rest) = c :: utf8Dec rest := by
  have hval : c.toNat < 1114112 := by
    rcases c.valid with h | h
    · exact Nat.lt_trans h (by norm_num)
    · exact h.2
  by_cases h1 : c.toNat < 128
  · rw [show utf8EncChar c = [c.toNat] from by simp [utf8EncChar, h1]]
    rw [List.cons_append, List.nil_append, utf8Dec.eq_def]
    simp [h1, ofNat_toNat_char]
  · by_cases h2 : c.toNat < 2048
    · rw [show utf8EncChar c = [192 + c.toNat / 64, 128 + c.toNat % 64] from by
        simp [utf8EncChar, h1, h2]]
      rw [List.cons_append, List.cons_append, List.nil_append, utf8Dec.eq_def]
      dsimp only
      rw [if_neg (by omega), if_neg (by omega), if_pos (by omega)]
      rw [utf8Dec2.eq_def]
      dsimp only
      rw [if_pos (show contB (128 + c.toNat % 64) = true by simp [contB]; omega)]
      rw [show (192 + c.toNat / 64 - 192) * 64 + (128 + c.toNat % 64 - 128) = c.toNat by omega,
        ofNat_toNat_char]
    · by_cases h3 : c.toNat < 65536
      · rw [show utf8EncChar c =
          [224 + c.toNat / 4096, 128 + c.toNat / 64 % 64, 128 + c.toNat % 64] from by
            simp [utf8EncChar, h1, h2, h3]]
        rw [List.cons_append, List.cons_append, List.cons_append, List.nil_append,
          utf8Dec.eq_def]
        dsimp only
        rw [if_neg (by omega), if_neg (by omega), if_neg (by omega), if_pos (by omega)]
        rw [utf8Dec3.eq_def]
        dsimp only
        rw [if_pos (show (contB (128 + c.toNat / 64 % 64) && contB (128 + c.toNat % 64)) = true
          by simp [contB]; omega)]
        rw [show (224 + c.toNat / 4096 - 224) * 4096 + (128 + c.toNat / 64 % 64 - 128) * 64 +
            (128 + c.toNat % 64 - 128) = c.toNat by omega, ofNat_toNat_char]
      · rw [show utf8EncChar c =
          [240 + c.toNat / 262144, 128 + c.toNat / 4096 % 64, 128 + c.toNat / 64 % 64,
            128 + c.toNat % 64] from by simp [utf8EncChar, h1, h2, h3]]
        rw [List.cons_append, List.cons_append, List.cons_append, List.cons_append,
          List.nil_append, utf8Dec.eq_def]
        dsimp only
        rw [if_neg (by omega), if_neg (by omega), if_neg (by omega), if_neg (by omega)]
        rw [utf8Dec4.eq_def]
        dsimp only
        rw [if_pos (show (contB (128 + c.toNat / 4096 % 64) && contB (128 + c.toNat / 64 % 64)
            && contB (128 + c.toNat % 64)) = true by simp [contB]; omega)]
        rw [show (240 + c.toNat / 262144 - 240) * 262144 + (128 + c.toNat / 4096 % 64 - 128)
            * 4096 + (128 + c.toNat / 64 % 64 - 128) * 64 + (128 + c.toNat % 64 - 128)
            = c.toNat by omega, ofNat_toNat_char]

theorem utf8Dec_utf8Enc (s : Str) : utf8Dec (utf8Enc s) = s := by
  induction s with
  | nil => rfl
  | cons c t ih =>
    rw [show utf8Enc (c :: t) = utf8EncChar c ++ utf8Enc t from rfl,
      utf8Dec_encChar_append, ih]

/-! ## The replace-based reversal -/

theorem replaceFirst_key_suffix (t key : Str)
    (h : findIdx? (t ++ key) key = some t.length) :
    replaceFirst (t ++ key) key [] = t := by
  unfold replaceFirst
  rw [h]
  dsimp only
  rw [List.take_left, List.drop_append, List.drop_length, List.append_nil, List.append_nil]

theorem decrypt_encrypt (text secret key enc : Str)
    (hk : deriveKey secret = some key)
    (henc : encrypt text secret = some enc)
    (hidx : findIdx? (text ++ key) key = some text.length) :
    decrypt enc secret = some text := by
  unfold encrypt at henc
  rw [hk] at henc
  simp only [Option.map_some'] at henc
  have henc2 : enc = b64Enc (utf8Enc (text ++ key)) := by
    injection henc with h2
    exact h2.symm
  subst henc2
  unfold decrypt
  rw [hk]
  dsimp only
  rw [b64Dec_b64Enc _ (utf8Enc_lt_256 _)]
  dsimp only
  rw [utf8Dec_utf8Enc, replaceFirst_key_suffix text key hidx]

/-! ## Entry and record lemmas -/

theorem jfieldV_entry_value (v : JValue) (e : Option Int) :
    jfieldV (Store.entryOf v e) valueKey = some v := by
  cases e <;> simp [Store.entryOf, jfieldV, jfield, valueKey, expiryKey]

theorem jfieldV_entry_expiry (v : JValue) (e : Option Int) :
    jfieldV (Store.entryOf v e) expiryKey = e.map (fun x => JValue.num x) := by
  cases e <;> simp [Store.entryOf, jfieldV, jfield, valueKey, expiryKey]

theorem entryOf_ne_null (v : JValue) (e : Option Int) : ¬Store.entryOf v e = JValue.null := by
  cases e <;> simp [Store.entryOf]

theorem jstrV_entry_not_empty (v : JValue) (e : Option Int) :
    (jstrV (Store.entryOf v e)).isEmpty = false := by
  have h : ∃ fs, Store.entryOf v e = JValue.obj fs := by
    cases e <;> simp [Store.entryOf]
  obtain ⟨fs, hfs⟩ := h
  rw [hfs]
  simp [jstrV]

theorem jexpired_entry_none (now : Int) (v : JValue) :
    jexpired now (Store.entryOf v none) = false := by
  simp [jexpired, jfieldV_entry_expiry, jtruthyO]

theorem jexpired_entry_some (now : Int) (v : JValue) (ev : Int) :
    jexpired now (Store.entryOf v (some ev)) = (!(ev == 0) && decide (now > ev)) := by
  simp only [jexpired, jfieldV_entry_expiry, Option.map_some']
  simp [jtruthyO, jtruthy, jgtO, toNum]

theorem decodeRecord_plain (o : StoreOptions) (hobf : effObf o = false) (raw : Str) :
    Store.decodeRecord o raw = jparse raw := by
  simp [Store.decodeRecord, hobf]

theorem decodeRecord_plain_jstrV (o : StoreOptions) (hobf : effObf o = false) (x : JValue) :
    Store.decodeRecord o (jstrV x) = some x := by
  rw [decodeRecord_plain o hobf, jparse_jstrV]

theorem set_plain (o : StoreOptions) (hobf : effObf o = false) (ns : Str) (now : Int)
    (m : Medium) (k : Str) (v : JValue) (ttl : Option Int) :
    Store.set o ns now m k v ttl =
      some (setItem m (Store.pkey ns k) (jstrV (Store.entryOf v (Store.ttlExpiry now ttl)))) := by
  simp [Store.set, Store.encodeRecord, hobf]

/-! ## `get` path lemmas -/

theorem get_absent (o : StoreOptions) (ns : Str) (now : Int) (m : Medium) (k : Str)
    (h : getItem m (Store.pkey ns k) = none) :
    Store.get o ns now m k = some (none, m) := by
  simp [Store.get, h]

theorem get_empty_record (o : StoreOptions) (ns : Str) (now : Int) (m : Medium) (k : Str)
    (raw : Str) (h : getItem m (Store.pkey ns k) = some raw) (he : raw.isEmpty = true) :
    Store.get o ns now m k = some (none, m) := by
  simp [Store.get, h, he]

theorem get_bad_record (o : StoreOptions) (ns : Str) (now : Int) (m : Medium) (k : Str)
    (raw : Str) (h : getItem m (Store.pkey ns k) = some raw) (hne : raw.isEmpty = false)
    (hdec : Store.decodeRecord o raw = none) :
    Store.get o ns now m k = some (none, m) := by
  simp [Store.get, h, hne, hdec]

theorem get_null_record (o : StoreOptions) (ns : Str) (now : Int) (m : Medium) (k : Str)
    (raw : Str) (h : getItem m (Store.pkey ns k) = some raw) (hne : raw.isEmpty = false)
    (hdec : Store.decodeRecord o raw = some JValue.null) :
    Store.get o ns now m k = none := by
  simp [Store.get, h, hne, hdec]

theorem get_not_expired (o : StoreOptions) (ns : Str) (now : Int) (m : Medium) (k : Str)
    (raw : Str) (parsed : JValue) (h : getItem m (Store.pkey ns k) = some raw)
    (hne : raw.isEmpty = false) (hdec : Store.decodeRecord o raw = some parsed)
    (hnn : ¬parsed = JValue.null) (hexp : jexpired now parsed = false) :
    Store.get o ns now m k = some (jret (jfieldV parsed valueKey), m) := by
  simp [Store.get, h, hne, hdec, hnn, hexp]

theorem get_expired (o : StoreOptions) (ns : Str) (now : Int) (m : Medium) (k : Str)
    (raw : Str) (parsed : JValue) (h : getItem m (Store.pkey ns k) = some raw)
    (hne : raw.isEmpty = false) (hdec : Store.decodeRecord o raw = some parsed)
    (hnn : ¬parsed = JValue.null) (hexp : jexpired now parsed = true) :
    Store.get o ns now m k =
      some (none, if autoCleanupB o then removeItem m (Store.pkey ns k) else m) := by
  simp [Store.get, h, hne, hdec, hnn, hexp]

/-! ## Reading back a plain write -/

theorem get_after_set_plain (o : StoreOptions) (hobf : effObf o = false) (ns : Str)
    (now later : Int) (m : Medium) (k : Str) (v : JValue) (ttl : Option Int) (m2 : Medium)
    (hset : Store.set o ns now m k v ttl = some m2)
    (hexp : jexpired later (Store.entryOf v (Store.ttlExpiry now ttl)) = false) :
    Store.get o ns later m2 k = some (jret (some v), m2) := by
  rw [set_plain o hobf ns now m k v ttl] at hset
  injection hset with hm2
  subst hm2
  rw [get_not_expired o ns later _ k _ (Store.entryOf v (Store.ttlExpiry now ttl))
    (getItem_setItem_self m (Store.pkey ns k) _)
    (jstrV_entry_not_empty v _) (decodeRecord_plain_jstrV o hobf _)
    (entryOf_ne_null v _) hexp, jfieldV_entry_value]

theorem get_after_set_plain_expired (o : StoreOptions) (hobf : effObf o = false) (ns : Str)
    (now later : Int) (m : Medium) (k : Str) (v : JValue) (ttl : Option Int) (m2 : Medium)
    (hset : Store.set o ns now m k v ttl = some m2)
    (hexp : jexpired later (Store.entryOf v (Store.ttlExpiry now ttl)) = true) :
    Store.get o ns later m2 k =
      some (none, if autoCleanupB o then removeItem m2 (Store.pkey ns k) else m2) := by
  rw [set_plain o hobf ns now m k v ttl] at hset
  injection hset with hm2
  subst hm2
  rw [get_expired o ns later _ k _ (Store.entryOf v (Store.ttlExpiry now ttl))
    (getItem_setItem_self m (Store.pkey ns k) _)
    (jstrV_entry_not_empty v _) (decodeRecord_plain_jstrV o hobf _)
    (entryOf_ne_null v _) hexp]

/-! # Claim theorems -/

/-- C1 (counterexample): the claim says `set(key, value, 0)` stores an entry
expiring at `now + 0`, so that the very next `get` returns null.  In the code
`ttlSeconds ? ... : undefined` treats the ttl `0` as falsy, so no expiry is
stored at all: here the very next `get` (same instant, and in fact any later
instant) returns the stored value, not null. -/
theorem C1_counterexample :
    ((Store.set plainOpts ("n".toList) 0 [] ("k".toList) (JValue.str ("v".toList))
        (some 0)).bind
      (fun m2 => (Store.get plainOpts ("n".toList) 0 m2 ("k".toList)).map Prod.fst))
      = some (some (JValue.str ("v".toList))) := by decide

/-- C1 (amended): with obfuscation not in effect, (a) `set(key, value, 0)`
stores an entry with no expiry field, so `get` at any later instant returns
the stored value; (b) for a negative ttl whose computed expiry
`now + ttl*1000` is nonzero, the expiry is already in the past at write
time, so `get` returns null (removing the record exactly when autoCleanup
is on); (c) in the corner case `now + ttl*1000 = 0` the stored expiry `0`
is falsy, so the entry never expires and `get` returns the value. -/
theorem C1_amended (o : StoreOptions) (hobf : effObf o = false) (ns k : Str) (v : JValue)
    (now later t : Int) (m m2 : Medium) :
    (Store.set o ns now m k v (some 0) = some m2 →
      Store.get o ns later m2 k = some (jret (some v), m2)) ∧
    (t < 0 → ¬now + t * 1000 = 0 → Store.set o ns now m k v (some t) = some m2 →
      Store.get o ns now m2 k =
        some (none, if autoCleanupB o then removeItem m2 (Store.pkey ns k) else m2)) ∧
    (¬t = 0 → now + t * 1000 = 0 → Store.set o ns now m k v (some t) = some m2 →
      Store.get o ns later m2 k = some (jret (some v), m2)) := by
  refine ⟨?_, ?_, ?_⟩
  · intro hset
    exact get_after_set_plain o hobf ns now later m k v (some 0) m2 hset
      (by simp [Store.ttlExpiry, jexpired_entry_none])
  · intro ht hnz hset
    refine get_after_set_plain_expired o hobf ns now now m k v (some t) m2 hset ?_
    have htne : ¬t = 0 := by omega
    simp only [Store.ttlExpiry, if_neg htne, jexpired_entry_some]
    have h1 : ¬now + t * 1000 = 0 := hnz
    have h2 : now > now + t * 1000 := by
      have : t * 1000 < 0 := by
        have := mul_lt_mul_of_pos_right ht (show (0 : Int) < 1000 by norm_num)
        simpa using this
      omega
    simp [h1, h2]
  · intro htne hz hset
    refine get_after_set_plain o hobf ns now later m k v (some t) m2 hset ?_
    simp [Store.ttlExpiry, if_neg htne, jexpired_entry_some, hz]

/-- C1 (witness): the amended claim at concrete inputs — a zero-ttl write at
time 0 read back at time 999999, a `-1`-second write at time 5000 read at
the same instant, and a `-1`-second write at time 1000 (computed expiry 0)
read at time 777777. -/
theorem C1_amended_witness :
    (Store.get plainOpts ("n".toList) 999999
        (setItem [] (Store.pkey ("n".toList) ("k".toList))
          (jstrV (Store.entryOf (JValue.bool true) none))) ("k".toList)
      = some (some (JValue.bool true),
          setItem [] (Store.pkey ("n".toList) ("k".toList))
            (jstrV (Store.entryOf (JValue.bool true) none)))) ∧
    (Store.get plainOpts ("n".toList) 5000
        (setItem [] (Store.pkey ("n".toList) ("k".toList))
          (jstrV (Store.entryOf (JValue.bool true) (some 4000)))) ("k".toList)
      = some (none,
          setItem [] (Store.pkey ("n".toList) ("k".toList))
            (jstrV (Store.entryOf (JValue.bool true) (some 4000))))) ∧
    (Store.get plainOpts ("n".toList) 777777
        (setItem [] (Store.pkey ("n".toList) ("k".toList))
          (jstrV (Store.entryOf (JValue.bool true) (some 0)))) ("k".toList)
      = some (some (JValue.bool true),
          setItem [] (Store.pkey ("n".toList) ("k".toList))
            (jstrV (Store.entryOf (JValue.bool true) (some 0))))) := by
  refine ⟨?_, ?_, ?_⟩
  · exact (C1_amended plainOpts rfl ("n".toList) ("k".toList) (JValue.bool true)
      0 999999 0 [] _).1 (by decide)
  · exact (C1_amended plainOpts rfl ("n".toList) ("k".toList) (JValue.bool true)
      5000 5000 (-1) [] _).2.1 (by decide) (by decide) (by decide)
  · exact (C1_amended plainOpts rfl ("n".toList) ("k".toList) (JValue.bool true)
      1000 777777 (-1) [] _).2.2 (by decide) (by decide) (by decide)

/-- C4 (counterexample): the claim says the in-memory fallback medium is one
shared map per process, so a `set` through one fallback store is observed by
`get` through another with the same namespace.  In the code
`createMemoryStorage()` allocates a fresh `Map` inside every `createStore`
call, so the second store's medium is empty and its `get` returns null even
though the first store's `get` sees the written value. -/
theorem C4_counterexample :
    ((Store.set plainOpts ("ns".toList) 0 createMemoryStorage ("k".toList)
        (JValue.str ("x".toList)) none).bind
      (fun mA => (Store.get plainOpts ("ns".toList) 0 mA ("k".toList)).map Prod.fst)
      = some (some (JValue.str ("x".toList))))
    ∧ (Store.get plainOpts ("ns".toList) 0 createMemoryStorage ("k".toList)).map Prod.fst
      = some none := by decide

/-- C4 (amended): each store instance constructed over the fallback gets its
own private, initially-empty in-memory medium (`createMemoryStorage()` is
called per construction).  A write through one instance's medium is read
back by that instance but is invisible to any other instance, whose medium
is still the fresh empty one. -/
theorem C4_amended (o : StoreOptions) (hobf : effObf o = false) (ns k : Str) (v : JValue)
    (now : Int) (mA : Medium)
    (hset : Store.set o ns now createMemoryStorage k v none = some mA) :
    Store.get o ns now mA k = some (jret (some v), mA) ∧
    Store.get o ns now createMemoryStorage k = some (none, createMemoryStorage) := by
  constructor
  · exact get_after_set_plain o hobf ns now now createMemoryStorage k v none mA hset
      (by simp [Store.ttlExpiry, jexpired_entry_none])
  · exact get_absent o ns now createMemoryStorage k rfl

/-- C4 (witness): the amended statement at a concrete write. -/
theorem C4_amended_witness :
    Store.get plainOpts ("ns".toList) 7
        (setItem createMemoryStorage (Store.pkey ("ns".toList) ("k".toList))
          (jstrV (Store.entryOf (JValue.num 3) none))) ("k".toList)
      = some (some (JValue.num 3),
          setItem createMemoryStorage (Store.pkey ("ns".toList) ("k".toList))
            (jstrV (Store.entryOf (JValue.num 3) none))) ∧
    Store.get plainOpts ("ns".toList) 7 createMemoryStorage ("k".toList)
      = some (none, createMemoryStorage) :=
  C4_amended plainOpts rfl ("ns".toList) ("k".toList) (JValue.num 3) 7 _ (by decide)

/-- C6 (counterexample): a stored entry whose expiry field is `0` (reachable
through the public API: `set` at `Date.now() = 1000` with ttl `-1` computes
expiry `1000 + (-1)*1000 = 0`).  At `now = 5000` the entry "has an expiry
with now > expiry", yet `get` returns the stored value, not null, because
`parsed.expiry && ...` treats the expiry `0` as falsy. -/
theorem C6_counterexample :
    ((Store.set plainOpts ("n".toList) 1000 [] ("k".toList) (JValue.str ("x".toList))
        (some (-1))).bind
      (fun m2 => (Store.get plainOpts ("n".toList) 5000 m2 ("k".toList)).map Prod.fst))
      = some (some (JValue.str ("x".toList))) := by decide

/-- C6 (amended): for a record decoding to an entry with a numeric expiry
`ev`: if `ev ≠ 0` and `now > ev`, `get` returns null and removes the
physical record exactly when autoCleanup is enabled (with it disabled the
medium is unchanged, so the expired record remains); if `ev = 0` (falsy) or
`now ≤ ev`, and likewise when the entry has no expiry field at all, `get`
returns the decoded value and leaves the medium unchanged. -/
theorem C6_amended (o : StoreOptions) (ns : Str) (now : Int) (m : Medium) (k : Str)
    (raw : Str) (parsed : JValue) (ev : Int)
    (hget : getItem m (Store.pkey ns k) = some raw) (hne : raw.isEmpty = false)
    (hdec : Store.decodeRecord o raw = some parsed) :
    (jfieldV parsed expiryKey = some (JValue.num ev) → ¬ev = 0 → now > ev →
      Store.get o ns now m k =
        some (none, if autoCleanupB o then removeItem m (Store.pkey ns k) else m)) ∧
    (jfieldV parsed expiryKey = some (JValue.num ev) → (ev = 0 ∨ now ≤ ev) →
      Store.get o ns now m k = some (jret (jfieldV parsed valueKey), m)) ∧
    (jfieldV parsed expiryKey = none → ¬parsed = JValue.null →
      Store.get o ns now m k = some (jret (jfieldV parsed valueKey), m)) := by
  refine ⟨?_, ?_, ?_⟩
  · intro hexp hev hnow
    have hnn : ¬parsed = JValue.null := by
      intro h
      rw [h] at hexp
      simp [jfieldV] at hexp
    refine get_expired o ns now m k raw parsed hget hne hdec hnn ?_
    simp [jexpired, hexp, jtruthyO, jtruthy, jgtO, toNum, hev, hnow]
  · intro hexp hcase
    have hnn : ¬parsed = JValue.null := by
      intro h
      rw [h] at hexp
      simp [jfieldV] at hexp
    refine get_not_expired o ns now m k raw parsed hget hne hdec hnn ?_
    rcases hcase with rfl | hle
    · simp [jexpired, hexp, jtruthyO, jtruthy]
    · simp [jexpired, hexp, jtruthyO, jtruthy, jgtO, toNum]
      omega
  · intro hexp hnn
    refine get_not_expired o ns now m k raw parsed hget hne hdec hnn ?_
    simp [jexpired, hexp, jtruthyO]

/-- C6 (witness): the amended statement exercised on concrete records — an
expired record (expiry 7 at now 100) under a store with autoCleanup
enabled (the record is removed), the same record read at now 5 (value
returned), and a record with no expiry field. -/
theorem C6_amended_witness :
    (Store.get { autoCleanup := some true } ("n".toList) 100
        [(Store.pkey ("n".toList) ("k".toList),
          jstrV (Store.entryOf (JValue.str ("x".toList)) (some 7)))] ("k".toList)
      = some (none, [])) ∧
    (Store.get { autoCleanup := some true } ("n".toList) 5
        [(Store.pkey ("n".toList) ("k".toList),
          jstrV (Store.entryOf (JValue.str ("x".toList)) (some 7)))] ("k".toList)
      = some (some (JValue.str ("x".toList)),
          [(Store.pkey ("n".toList) ("k".toList),
            jstrV (Store.entryOf (JValue.str ("x".toList)) (some 7)))])) ∧
    (Store.get plainOpts ("n".toList) 100
        [(Store.pkey ("n".toList) ("k".toList),
          jstrV (Store.entryOf (JValue.num 9) none))] ("k".toList)
      = some (some (JValue.num 9),
          [(Store.pkey ("n".toList) ("k".toList),
            jstrV (Store.entryOf (JValue.num 9) none))])) := by
  refine ⟨?_, ?_, ?_⟩
  · have h := (C6_amended { autoCleanup := some true } ("n".toList) 100 _ ("k".toList)
      (jstrV (Store.entryOf (JValue.str ("x".toList)) (some 7)))
      (Store.entryOf (JValue.str ("x".toList)) (some 7)) 7
      (getItem_setItem_self [] _ _) (by decide) (by decide)).1
      (by decide) (by decide) (by decide)
    simpa using h
  · have h := (C6_amended { autoCleanup := some true } ("n".toList) 5 _ ("k".toList)
      (jstrV (Store.entryOf (JValue.str ("x".toList)) (some 7)))
      (Store.entryOf (JValue.str ("x".toList)) (some 7)) 7
      (getItem_setItem_self [] _ _) (by decide) (by decide)).2.1
      (by decide) (by decide)
    simpa using h
  · have h := (C6_amended plainOpts ("n".toList) 100 _ ("k".toList)
      (jstrV (Store.entryOf (JValue.num 9) none))
      (Store.entryOf (JValue.num 9) none) 0
      (getItem_setItem_self [] _ _) (by decide) (by decide)).2.2
      (by decide) (by decide)
    simpa using h

/-- C9: `keys()` lists exactly the logical keys whose physical records are
present in the medium under this namespace — membership depends only on
record presence, not on expiry or any option: `keys` takes neither the
clock nor the configuration, performs no cleanup, and returns the medium
unchanged by construction. -/
theorem C9_keys_exact (ns : Str) (m : Medium) (k : Str) :
    k ∈ Store.keys ns m ↔ ∃ raw, getItem m (Store.pkey ns k) = some raw := by
  rw [Store.keys, mem_getAllKeys, ← getItem_isSome_iff, Option.isSome_iff_exists]

/-! ## `clear` characterization -/

theorem getItem_filter_pass (p : Str × Str → Bool) (pk : Str)
    (hp : ∀ v, p (pk, v) = true) : ∀ m : Medium, getItem (m.filter p) pk = getItem m pk := by
  intro m
  induction m with
  | nil => simp
  | cons kv t ih =>
    obtain ⟨k0, v0⟩ := kv
    by_cases hk : k0 = pk
    · subst hk
      rw [List.filter_cons, if_pos (by rw [hp v0])]
      simp [getItem]

    · rw [List.filter_cons]
      by_cases hkeep : p (k0, v0) = true
      · rw [if_pos (by rw [hkeep])]
        simp [getItem, hk, ih]
      · rw [if_neg (by simp [hkeep])]
        simp [getItem, hk, ih]

theorem getItem_filter_drop (p : Str × Str → Bool) (pk : Str)
    (hp : ∀ v, p (pk, v) = false) : ∀ m : Medium, getItem (m.filter p) pk = none := by
  intro m
  induction m with
  | nil => simp [getItem]
  | cons kv t ih =>
    obtain ⟨k0, v0⟩ := kv
    by_cases hk : k0 = pk
    · subst hk
      rw [List.filter_cons, if_neg (by simp [hp v0])]
      exact ih
    · rw [List.filter_cons]
      by_cases hkeep : p (k0, v0) = true
      · rw [if_pos (by rw [hkeep])]
        simp [getItem, hk, ih]
      · rw [if_neg (by simp [hkeep])]
        exact ih

theorem foldl_removeItem_eq_filter (ns : Str) (ks : List Str) : ∀ m : Medium,
    ks.foldl (fun mm k => removeItem mm (Store.pkey ns k)) m =
      m.filter (fun kv => !decide (kv.1 ∈ ks.map (Store.pkey ns))) := by
  induction ks with
  | nil =>
    intro m
    simp
  | cons k ks ih =>
    intro m
    rw [List.foldl_cons, ih (removeItem m (Store.pkey ns k)), removeItem_eq_filter,
      List.filter_filter]
    apply List.filter_congr
    intro kv _
    simp only [List.map_cons, List.mem_cons, Bool.and_eq_true, decide_eq_true_eq,
      Bool.not_eq_true', decide_eq_false_iff_not]
    by_cases h1 : kv.1 = Store.pkey ns k
    · simp [h1]
    · by_cases h2 : kv.1 ∈ ks.map (Store.pkey ns)
      · simp [h1, h2]
      · simp [h1, h2]

/-- C8: `clear()` first enumerates the namespace's keys and then removes
them, which amounts to filtering out of the medium exactly the physical
keys carrying this namespace's prefix: every entry of the namespace is
removed, and every physical key outside the prefix keeps its exact
previous value. -/
theorem C8_clear_exact (ns : Str) (m : Medium) :
    Store.clear ns m = m.filter (fun kv => !startsWith (Store.pre ns) kv.1) ∧
    (∀ pk2 : Str, startsWith (Store.pre ns) pk2 = false →
      getItem (Store.clear ns m) pk2 = getItem m pk2) ∧
    (∀ k : Str, getItem (Store.clear ns m) (Store.pkey ns k) = none) := by
  have hmain : Store.clear ns m = m.filter (fun kv => !startsWith (Store.pre ns) kv.1) := by
    rw [Store.clear, foldl_removeItem_eq_filter ns (Store.getAllKeys ns m) m]
    apply List.filter_congr
    intro kv hkv
    congr 1
    have := @mem_map_pkey_getAllKeys ns m kv.1
    by_cases hsw : startsWith (Store.pre ns) kv.1 = true
    · rw [hsw]
      have hmem : kv.1 ∈ (Store.getAllKeys ns m).map (Store.pkey ns) :=
        this.mpr ⟨hsw, List.mem_map_of_mem Prod.fst hkv⟩
      simp [hmem]
    · rw [Bool.not_eq_true] at hsw
      rw [hsw]
      have hmem : kv.1 ∉ (Store.getAllKeys ns m).map (Store.pkey ns) := by
        intro hmem
        exact absurd (this.mp hmem).1 (by simp [hsw])
      simp [hmem]
  refine ⟨hmain, ?_, ?_⟩
  · intro pk2 hps
    rw [hmain]
    exact getItem_filter_pass _ pk2 (fun v => by simp [hps]) m
  · intro k
    rw [hmain]
    exact getItem_filter_drop _ (Store.pkey ns k)
      (fun v => by simp [Store.pkey, startsWith_append]) m

/-! ## Cleanup characterization -/

theorem cleanupStep_eq (o : StoreOptions) (ns : Str) (now : Int) (m : Medium) (k : Str) :
    Store.cleanupStep o ns now m k =
      match getItem m (Store.pkey ns k) with
      | none => m
      | some raw => if recordBad o now raw then removeItem m (Store.pkey ns k) else m := by
  cases hg : getItem m (Store.pkey ns k) with
  | none => simp [Store.cleanupStep, hg]
  | some raw =>
    by_cases he : raw.isEmpty
    · simp [Store.cleanupStep, hg, he, recordBad]
    · cases hd : Store.decodeRecord o raw with
      | none =>
        simp [Store.cleanupStep, hg, he, hd, recordBad]
      | some parsed =>
        by_cases hn : parsed = JValue.null
        · subst hn
          simp [Store.cleanupStep, hg, he, hd, recordBad]
        · by_cases hx : jexpired now parsed = true
          · simp [Store.cleanupStep, hg, he, hd, hn, hx, recordBad]
          · simp only [Bool.not_eq_true] at hx
            simp [Store.cleanupStep, hg, he, hd, hn, hx, recordBad]

theorem cleanup_fold_filter (o : StoreOptions) (ns : Str) (now : Int) :
    ∀ (ks : List Str) (m : Medium), mediumWF m →
    ks.foldl (Store.cleanupStep o ns now) m =
      m.filter (fun kv => !(decide (kv.1 ∈ ks.map (Store.pkey ns)) && recordBad o now kv.2)) := by
  intro ks
  induction ks with
  | nil =>
    intro m _
    simp
  | cons k ks ih =>
    intro m hWF
    rw [List.foldl_cons, cleanupStep_eq]
    cases hg : getItem m (Store.pkey ns k) with
    | none =>
      rw [ih m hWF]
      apply List.filter_congr
      intro kv hkv
      have hne : kv.1 ≠ Store.pkey ns k := by
        intro heq
        have : kv.1 ∈ m.map Prod.fst := List.mem_map_of_mem Prod.fst hkv
        rw [heq] at this
        exact (getItem_eq_none_iff.mp hg) this
      simp [List.mem_cons, hne]
    | some raw =>
      dsimp only
      by_cases hbad : recordBad o now raw = true
      · rw [if_pos hbad, removeItem_eq_filter, ih _ (by
          rw [← removeItem_eq_filter]
          exact mediumWF_removeItem _ hWF), List.filter_filter]
        apply List.filter_congr
        intro kv hkv
        by_cases h1 : kv.1 = Store.pkey ns k
        · have hv : kv.2 = raw := by
            have := mem_getItem hWF hkv
            rw [h1, hg] at this
            injection this with h2
            exact h2.symm
          simp [List.mem_cons, h1, hv, hbad]
        · simp [List.mem_cons, h1]
      · simp only [Bool.not_eq_true] at hbad
        rw [if_neg (by simp [hbad]), ih m hWF]
        apply List.filter_congr
        intro kv hkv
        by_cases h1 : kv.1 = Store.pkey ns k
        · have hv : kv.2 = raw := by
            have := mem_getItem hWF hkv
            rw [h1, hg] at this
            injection this with h2
            exact h2.symm
          simp [List.mem_cons, h1, hv, hbad]
        · simp [List.mem_cons, h1]

theorem cleanupExpired_filter (o : StoreOptions) (ns : Str) (now : Int) (m : Medium)
    (hWF : mediumWF m) (hac : autoCleanupB o = true) :
    Store.cleanupExpired o ns now m =
      m.filter (fun kv => !cleanRemovable o ns now kv) := by
  rw [Store.cleanupExpired, if_pos hac, cleanup_fold_filter o ns now (Store.getAllKeys ns m) m hWF]
  apply List.filter_congr
  intro kv hkv
  unfold cleanRemovable
  congr 1
  have hiff := @mem_map_pkey_getAllKeys ns m kv.1
  by_cases hsw : startsWith (Store.pre ns) kv.1 = true
  · have hmem : kv.1 ∈ (Store.getAllKeys ns m).map (Store.pkey ns) :=
      hiff.mpr ⟨hsw, List.mem_map_of_mem Prod.fst hkv⟩
    simp [hmem, hsw]
  · rw [Bool.not_eq_true] at hsw
    have hmem : kv.1 ∉ (Store.getAllKeys ns m).map (Store.pkey ns) := by
      intro hmem
      exact absurd (hiff.mp hmem).1 (by simp [hsw])
    simp [hmem, hsw]

theorem cleanupExpired_noop (o : StoreOptions) (ns : Str) (now : Int) (m : Medium)
    (hac : autoCleanupB o = false) :
    Store.cleanupExpired o ns now m = m := by
  rw [Store.cleanupExpired, if_neg (by simp [hac])]

theorem getItem_filter_eq_none (p : Str × Str → Bool) {m : Medium} {pk raw : Str}
    (hWF : mediumWF m) (hget : getItem m pk = some raw) (hp : p (pk, raw) = false) :
    getItem (m.filter p) pk = none := by
  rw [getItem_eq_none_iff]
  intro hmem
  obtain ⟨kv, hkv, hfst⟩ := List.mem_map.mp hmem
  have hfil := List.mem_filter.mp hkv
  have hm := mem_getItem hWF hfil.1
  rw [hfst, hget] at hm
  injection hm with h2
  have : kv = (pk, raw) := by
    obtain ⟨a, b⟩ := kv
    simp at hfst h2
    rw [hfst, h2]
  rw [this] at hfil
  rw [hp] at hfil
  exact absurd hfil.2 (by simp)

/-- C5 (counterexample): an empty-string record is corrupt data whose decode
fails (`JSON.parse("")` throws), yet the cleanup pass does not remove it:
the `if (!raw) return;` guard skips empty records, so after `init()` with
autoCleanup enabled the malformed record is still physically present,
contradicting the claim that a cleanup pass removes every record that fails
to decode. -/
theorem C5_counterexample :
    Store.decodeRecord { autoCleanup := some true } [] = none ∧
    Store.init { autoCleanup := some true } ("n".toList) 5
        [(Store.pkey ("n".toList) ("k".toList), [])]
      = [(Store.pkey ("n".toList) ("k".toList), [])] ∧
    getItem [(Store.pkey ("n".toList) ("k".toList), ([] : Str))]
        (Store.pkey ("n".toList) ("k".toList)) = some [] := by
  refine ⟨by decide, by decide, by decide⟩

/-- C5 (amended): for every key whose (nonempty) physical record fails to
decode, `get` returns null without throwing and without touching the medium
(`get` deletes only on confirmed expiry), and a cleanup pass (`init`, also
run by `getAll`, with autoCleanup enabled) removes the malformed record from
the medium.  Exception forced by the counterexample: an empty-string record
also fails to decode but is skipped (treated as absent) by both `get` and
the cleanup pass, and so is never removed. -/
theorem C5_amended (o : StoreOptions) (ns : Str) (now : Int) (m : Medium) (k : Str)
    (raw : Str) (hWF : mediumWF m)
    (hget : getItem m (Store.pkey ns k) = some raw)
    (hdec : Store.decodeRecord o raw = none) :
    Store.get o ns now m k = some (none, m) ∧
    (raw.isEmpty = false → autoCleanupB o = true →
      getItem (Store.init o ns now m) (Store.pkey ns k) = none) := by
  constructor
  · by_cases he : raw.isEmpty
    · exact get_empty_record o ns now m k raw hget he
    · exact get_bad_record o ns now m k raw hget (by simpa using he) hdec
  · intro hne hac
    rw [Store.init, cleanupExpired_filter o ns now m hWF hac]
    refine getItem_filter_eq_none _ hWF hget ?_
    simp only [cleanRemovable, recordBad, Store.pkey]
    rw [startsWith_append]
    simp [hne, hdec]

/-- C5 (witness): a concrete malformed (nonempty, unparsable) record:
`get` returns null leaving the medium unchanged, and `init` with
autoCleanup removes it. -/
theorem C5_amended_witness :
    (Store.get { autoCleanup := some true } ("n".toList) 5
        [(Store.pkey ("n".toList) ("k".toList), "corrupt".toList)] ("k".toList)
      = some (none, [(Store.pkey ("n".toList) ("k".toList), "corrupt".toList)])) ∧
    getItem (Store.init { autoCleanup := some true } ("n".toList) 5
        [(Store.pkey ("n".toList) ("k".toList), "corrupt".toList)])
        (Store.pkey ("n".toList) ("k".toList)) = none := by
  have h := C5_amended { autoCleanup := some true } ("n".toList) 5
    [(Store.pkey ("n".toList) ("k".toList), "corrupt".toList)] ("k".toList)
    ("corrupt".toList) (by simp [mediumWF]) (by decide) (by decide)
  exact ⟨h.1, h.2 (by decide) (by decide)⟩

/-! ## `getAll` machinery -/

theorem get_value_needs_record (o : StoreOptions) (ns : Str) (now : Int) (m : Medium)
    (k : Str) (v2 : JValue) (m2 : Medium)
    (h : Store.get o ns now m k = some (some v2, m2)) :
    ∃ raw, getItem m (Store.pkey ns k) = some raw := by
  cases hg : getItem m (Store.pkey ns k) with
  | none =>
    rw [get_absent o ns now m k hg] at h
    simp at h
  | some raw => exact ⟨raw, rfl⟩

theorem get_stable_noAC (o : StoreOptions) (hac : autoCleanupB o = false) (ns : Str)
    (now : Int) (m : Medium) (k : Str)
    (hnonull : ∀ kv ∈ m, ¬Store.decodeRecord o kv.2 = some JValue.null) :
    ∃ r, Store.get o ns now m k = some (r, m) := by
  cases hg : getItem m (Store.pkey ns k) with
  | none => exact ⟨none, get_absent o ns now m k hg⟩
  | some raw =>
    by_cases he : raw.isEmpty
    · exact ⟨none, get_empty_record o ns now m k raw hg he⟩
    · rw [Bool.not_eq_true] at he
      cases hd : Store.decodeRecord o raw with
      | none => exact ⟨none, get_bad_record o ns now m k raw hg he hd⟩
      | some parsed =>
        have hnn : ¬parsed = JValue.null := by
          intro hp
          subst hp
          exact hnonull (Store.pkey ns k, raw) (getItem_mem hg) hd
        by_cases hx : jexpired now parsed = true
        · refine ⟨none, ?_⟩
          rw [get_expired o ns now m k raw parsed hg he hd hnn hx, hac]
          simp
        · rw [Bool.not_eq_true] at hx
          exact ⟨jret (jfieldV parsed valueKey),
            get_not_expired o ns now m k raw parsed hg he hd hnn hx⟩

theorem get_stable_cleaned (o : StoreOptions) (ns : Str) (now : Int) (m : Medium) (k : Str) :
    ∃ r, Store.get o ns now (m.filter (fun kv => !cleanRemovable o ns now kv)) k
      = some (r, m.filter (fun kv => !cleanRemovable o ns now kv)) := by
  set mf := m.filter (fun kv => !cleanRemovable o ns now kv) with hmf
  cases hg : getItem mf (Store.pkey ns k) with
  | none => exact ⟨none, get_absent o ns now mf k hg⟩
  | some raw =>
    by_cases he : raw.isEmpty
    · exact ⟨none, get_empty_record o ns now mf k raw hg he⟩
    · rw [Bool.not_eq_true] at he
      have hmem := getItem_mem hg
      rw [hmf] at hmem
      have hpred := (List.mem_filter.mp hmem).2
      have hsw : startsWith (Store.pre ns) (Store.pkey ns k) = true := startsWith_append _ _
      have hbad : recordBad o now raw = false := by
        by_contra hb
        rw [Bool.not_eq_false] at hb
        rw [cleanRemovable] at hpred
        simp only [hsw, hb, Bool.and_self, Bool.not_true] at hpred
        exact absurd hpred (by simp)
      cases hd : Store.decodeRecord o raw with
      | none =>
        exact ⟨none, get_bad_record o ns now mf k raw hg he hd⟩
      | some parsed =>
        rw [recordBad, he] at hbad
        simp only [hd, Bool.not_false, Bool.true_and] at hbad
        have hnn : ¬parsed = JValue.null := by
          intro hp
          rw [hp] at hbad
          simp at hbad
        have hx : jexpired now parsed = false := by
          rcases Bool.or_eq_false_iff.mp hbad with ⟨_, h2⟩
          exact h2
        exact ⟨jret (jfieldV parsed valueKey),
          get_not_expired o ns now mf k raw parsed hg he hd hnn hx⟩

theorem getAllCollect_stable (o : StoreOptions) (ns : Str) (now : Int) (m : Medium)
    (hst : ∀ k, ∃ r, Store.get o ns now m k = some (r, m)) :
    ∀ (ks : List Str) (acc : List (Str × JValue)),
      Store.getAllCollect o ns now ks (acc, m) =
        some (acc ++ ks.filterMap (fun k =>
          match Store.get o ns now m k with
          | some (some v, _) => some (k, v)
          | _ => none), m) := by
  intro ks
  induction ks with
  | nil =>
    intro acc
    simp [Store.getAllCollect]
  | cons k ks ih =>
    intro acc
    obtain ⟨r, hr⟩ := hst k
    rw [Store.getAllCollect, hr]
    dsimp only
    cases r with
    | none =>
      rw [ih acc]
      simp [hr]
    | some v =>
      rw [ih (acc ++ [(k, v)])]
      simp [hr]

/-- C7 (counterexample): with autoCleanup enabled, `getAll` is claimed to
remove every entry whose expiry has passed.  A record with expiry field `0`
(reachable via `set` with a suitable negative ttl) has its expiry in the
past at `now = 5000`, yet the cleanup pass skips it (`parsed.expiry` is
falsy), the physical record stays in the medium, and the entry is even
included in the returned mapping. -/
theorem C7_counterexample :
    Store.getAll { autoCleanup := some true } ("n".toList) 5000
        [(Store.pkey ("n".toList) ("k".toList),
          jstrV (Store.entryOf (JValue.str ("x".toList)) (some 0)))]
      = some ([(("k".toList), JValue.str ("x".toList))],
          [(Store.pkey ("n".toList) ("k".toList),
            jstrV (Store.entryOf (JValue.str ("x".toList)) (some 0)))]) := by decide

/-- C7 (amended): `getAll` with autoCleanup enabled first runs the cleanup
pass unconditionally: the resulting medium is exactly the old one minus
every namespace record that is nonempty and fails to decode, decodes to
JSON null, or has a truthy expired expiry (`cleanRemovable`; empty-string
and zero-expiry records are skipped, as the counterexample forces); the
returned mapping then contains exactly the pairs `(k, v)` with `get k`
returning `v ≠ null` over the cleaned medium.  With autoCleanup disabled
(and no record decoding to JSON null, which would make `get` throw) the
medium is left fully intact and the mapping contains exactly the non-null
`get` results, so expired entries are excluded but remain stored. -/
theorem C7_amended (o : StoreOptions) (ns : Str) (now : Int) (m : Medium)
    (hWF : mediumWF m) :
    (autoCleanupB o = true →
      ∃ res, Store.getAll o ns now m =
          some (res, m.filter (fun kv => !cleanRemovable o ns now kv)) ∧
        ∀ (k : Str) (v2 : JValue), (k, v2) ∈ res ↔
          Store.get o ns now (m.filter (fun kv => !cleanRemovable o ns now kv)) k =
            some (some v2, m.filter (fun kv => !cleanRemovable o ns now kv))) ∧
    (autoCleanupB o = false →
      (∀ kv ∈ m, ¬Store.decodeRecord o kv.2 = some JValue.null) →
      ∃ res, Store.getAll o ns now m = some (res, m) ∧
        ∀ (k : Str) (v2 : JValue), (k, v2) ∈ res ↔
          Store.get o ns now m k = some (some v2, m)) := by
  constructor
  · intro hac
    have hclean := cleanupExpired_filter o ns now m hWF hac
    set mf := m.filter (fun kv => !cleanRemovable o ns now kv) with hmf
    have hst : ∀ k, ∃ r, Store.get o ns now mf k = some (r, mf) := fun k =>
      get_stable_cleaned o ns now m k
    refine ⟨(Store.getAllKeys ns mf).filterMap (fun k =>
      match Store.get o ns now mf k with
      | some (some v, _) => some (k, v)
      | _ => none), ?_, ?_⟩
    · rw [Store.getAll, hclean, getAllCollect_stable o ns now mf hst]
      simp
    · intro k v2
      rw [List.mem_filterMap]
      constructor
      · rintro ⟨k2, hk2, hmatch⟩
        obtain ⟨r, hr⟩ := hst k2
        rw [hr] at hmatch
        cases r with
        | none => simp at hmatch
        | some v =>
          simp only [Option.some.injEq] at hmatch
          injection hmatch with h1 h2
          subst h1
          subst h2
          exact hr
      · intro hget
        refine ⟨k, ?_, by rw [hget]⟩
        obtain ⟨raw, hraw⟩ := get_value_needs_record o ns now mf k v2 mf hget
        rw [mem_getAllKeys]
        rw [← getItem_isSome_iff, hraw]
        rfl
  · intro hac hnonull
    have hclean := cleanupExpired_noop o ns now m hac
    have hst : ∀ k, ∃ r, Store.get o ns now m k = some (r, m) := fun k =>
      get_stable_noAC o hac ns now m k hnonull
    refine ⟨(Store.getAllKeys ns m).filterMap (fun k =>
      match Store.get o ns now m k with
      | some (some v, _) => some (k, v)
      | _ => none), ?_, ?_⟩
    · rw [Store.getAll, hclean, getAllCollect_stable o ns now m hst]
      simp
    · intro k v2
      rw [List.mem_filterMap]
      constructor
      · rintro ⟨k2, hk2, hmatch⟩
        obtain ⟨r, hr⟩ := hst k2
        rw [hr] at hmatch
        cases r with
        | none => simp at hmatch
        | some v =>
          simp only [Option.some.injEq] at hmatch
          injection hmatch with h1 h2
          subst h1
          subst h2
          exact hr
      · intro hget
        refine ⟨k, ?_, by rw [hget]⟩
        obtain ⟨raw, hraw⟩ := get_value_needs_record o ns now m k v2 m hget
        rw [mem_getAllKeys]
        rw [← getItem_isSome_iff, hraw]
        rfl

/-- C7 (witness): the amended claim at a concrete two-record medium (one
entry expired at the observation instant, one without expiry): the medium
after `getAll` with autoCleanup is exactly the cleanup filter of the
original, which drops the expired record and keeps the live one. -/
theorem C7_amended_witness :
    (Store.getAll { autoCleanup := some true } ("n".toList) 100
        [(Store.pkey ("n".toList) ("a".toList), jstrV (Store.entryOf (JValue.num 1) (some 7))),
          (Store.pkey ("n".toList) ("b".toList),
            jstrV (Store.entryOf (JValue.num 2) none))]).map Prod.snd
      = some (List.filter
          (fun kv => !cleanRemovable { autoCleanup := some true } ("n".toList) 100 kv)
          [(Store.pkey ("n".toList) ("a".toList), jstrV (Store.entryOf (JValue.num 1) (some 7))),
            (Store.pkey ("n".toList) ("b".toList),
              jstrV (Store.entryOf (JValue.num 2) none))]) := by
  obtain ⟨res, h1, _⟩ := (C7_amended { autoCleanup := some true } ("n".toList) 100
    [(Store.pkey ("n".toList) ("a".toList), jstrV (Store.entryOf (JValue.num 1) (some 7))),
      (Store.pkey ("n".toList) ("b".toList), jstrV (Store.entryOf (JValue.num 2) none))]
    (by simp [mediumWF]; decide)).1 (by decide)
  rw [h1]
  rfl

/-- C3 (counterexample): `set` is not exception-free: with `obfuscate: true`
and a secret containing a character outside Latin-1 (here U+0100),
`btoa(secret)` inside `encrypt` throws an `InvalidCharacterError` that
propagates to the caller of `set` (modelled as `none`), contradicting the
claim that no public operation ever throws. -/
theorem C3_counterexample :
    Store.set { obfuscate := some true, secret := some [Char.ofNat 256] }
      ("n".toList) 0 [] ("k".toList) (JValue.num 1) none = none := by decide

/-- C3 (amended): the exception behaviour of the public operations is:
`set` throws exactly when obfuscation is effective and the secret contains
a character outside Latin-1 (`btoa` fails); `get` throws exactly when the
addressed record is nonempty and decodes to JSON `null` (the unguarded
`parsed.expiry` access raises a TypeError); `has` throws exactly when
`get` does.  All remaining operations (`remove`, `clear`, `keys`, `init`,
and `cleanupExpired`) are total functions of the model and never throw;
`getAll` can only throw through the `get` calls it makes. -/
theorem C3_amended (o : StoreOptions) (ns : Str) (now : Int) (m : Medium) (k : Str)
    (v : JValue) (ttl : Option Int) :
    (Store.set o ns now m k v ttl = none ↔
      (effObf o = true ∧ secretLatin1 o = false)) ∧
    (Store.get o ns now m k = none ↔
      ∃ raw, getItem m (Store.pkey ns k) = some raw ∧ raw.isEmpty = false ∧
        Store.decodeRecord o raw = some JValue.null) ∧
    (Store.has o ns now m k = none ↔ Store.get o ns now m k = none) := by
  refine ⟨?_, ?_, ?_⟩
  · cases heff : effObf o
    · rw [set_plain o heff ns now m k v ttl]
      simp [heff]
    · have hsec : ∃ sec, o.secret = some sec := by
        cases hs : o.secret with
        | none =>
          rw [effObf, secretTruthy, hs] at heff
          simp at heff
        | some sec => exact ⟨sec, rfl⟩
      obtain ⟨sec, hs⟩ := hsec
      by_cases hl : latin1 sec = true
      · simp [Store.set, Store.encodeRecord, heff, hs, encrypt, deriveKey, btoaJS, hl,
          secretLatin1]
      · rw [Bool.not_eq_true] at hl
        simp [Store.set, Store.encodeRecord, heff, hs, encrypt, deriveKey, btoaJS, hl,
          secretLatin1]
  · cases hg : getItem m (Store.pkey ns k) with
    | none =>
      rw [get_absent o ns now m k hg]
      simp
    | some raw =>
      by_cases he : raw.isEmpty
      · rw [get_empty_record o ns now m k raw hg he]
        constructor
        · intro h
          exact absurd h (by simp)
        · rintro ⟨raw2, hr2, hne2, _⟩
          injection hr2 with hr3
          rw [← hr3] at hne2
          rw [he] at hne2
          exact absurd hne2 (by simp)
      · rw [Bool.not_eq_true] at he
        cases hd : Store.decodeRecord o raw with
        | none =>
          rw [get_bad_record o ns now m k raw hg he hd]
          constructor
          · intro h
            exact absurd h (by simp)
          · rintro ⟨raw2, hr2, _, hd2⟩
            injection hr2 with hr3
            rw [← hr3, hd] at hd2
            exact absurd hd2 (by simp)
        | some parsed =>
          by_cases hn : parsed = JValue.null
          · subst hn
            rw [get_null_record o ns now m k raw hg he hd]
            constructor
            · intro _
              exact ⟨raw, rfl, he, hd⟩
            · intro _
              trivial
          · have hsome : ∃ p, Store.get o ns now m k = some p := by
              by_cases hx : jexpired now parsed = true
              · exact ⟨_, get_expired o ns now m k raw parsed hg he hd hn hx⟩
              · rw [Bool.not_eq_true] at hx
                exact ⟨_, get_not_expired o ns now m k raw parsed hg he hd hn hx⟩
            obtain ⟨p, hp⟩ := hsome
            rw [hp]
            constructor
            · intro h
              exact absurd h (by simp)
            · rintro ⟨raw2, hr2, _, hd2⟩
              injection hr2 with hr3
              rw [← hr3, hd] at hd2
              injection hd2 with hd3
              exact absurd hd3 hn
  · rw [Store.has, Option.map_eq_none']

/-! ## Obfuscated writes -/

theorem b64Enc_not_empty (bs : List Nat) (h : ¬bs = []) : (b64Enc bs).isEmpty = false := by
  match bs with
  | [] => exact absurd rfl h
  | [b0] => rfl
  | [b0, b1] => rfl
  | b0 :: b1 :: b2 :: rest => rfl

theorem utf8Enc_not_empty (s : Str) (h : ¬s = []) : ¬utf8Enc s = [] := by
  match s with
  | [] => exact absurd rfl h
  | c :: t =>
    rw [show utf8Enc (c :: t) = utf8EncChar c ++ utf8Enc t from rfl]
    have : ¬utf8EncChar c = [] := by
      unfold utf8EncChar
      by_cases h1 : c.toNat < 128
      · simp [h1]
      · by_cases h2 : c.toNat < 2048
        · simp [h1, h2]
        · by_cases h3 : c.toNat < 65536
          · simp [h1, h2, h3]
          · simp [h1, h2, h3]
    simp [List.append_eq_nil]
    intro hc
    exact absurd hc this

theorem set_obf (o : StoreOptions) (sec key : Str) (hs : o.secret = some sec)
    (heff : effObf o = true) (hk : deriveKey sec = some key) (ns : Str) (now : Int)
    (m : Medium) (k : Str) (v : JValue) (ttl : Option Int) :
    Store.set o ns now m k v ttl = some (setItem m (Store.pkey ns k)
      (b64Enc (utf8Enc (jstrV (Store.entryOf v (Store.ttlExpiry now ttl)) ++ key)))) := by
  simp [Store.set, Store.encodeRecord, heff, hs, encrypt, hk]

theorem decodeRecord_obf (o : StoreOptions) (sec key : Str) (hs : o.secret = some sec)
    (heff : effObf o = true) (hk : deriveKey sec = some key) (text : Str)
    (hidx : findIdx? (text ++ key) key = some text.length) :
    Store.decodeRecord o (b64Enc (utf8Enc (text ++ key))) = jparse text := by
  have hdec := decrypt_encrypt text sec key (b64Enc (utf8Enc (text ++ key))) hk
    (by simp [encrypt, hk]) hidx
  simp [Store.decodeRecord, heff, hs, hdec]

/-- C2 (counterexample): the obfuscation round trip fails when the derived
key occurs inside the serialized entry.  With secret `"a"` the derived key
is `btoa("a") = "YQ=="`; storing the value `"YQ=="` serializes to
`{"value":"YQ=="}`, and `decrypt`'s `buffer.replace(key, "")` removes the
*interior* occurrence of `YQ==` instead of the appended copy, leaving
unparsable text — so `get` returns null instead of the stored value. -/
theorem C2_counterexample :
    ((Store.set { obfuscate := some true, secret := some ("a".toList) } ("n".toList) 0 []
        ("k".toList) (JValue.str ("YQ==".toList)) none).bind
      (fun m2 => (Store.get { obfuscate := some true, secret := some ("a".toList) }
        ("n".toList) 0 m2 ("k".toList)).map Prod.fst))
      = some none := by decide

/-- C2 (amended): `set` then `get` returns the original value unchanged in
all three configurations — `obfuscate: true` with a secret, the deprecated
`encrypt: true` with a secret, and `obfuscate: true` without a secret
(stored unobfuscated, no error) — provided that, when obfuscation is
effective, `btoa` accepts the secret (Latin-1) and the derived key
`btoa(secret).slice(0,32)` does not occur in the serialized entry text
before its appended copy (the condition the counterexample violates). -/
theorem C2_amended (o : StoreOptions) (ns : Str) (now : Int) (m : Medium) (k : Str)
    (v : JValue)
    (hobf : ∀ sec, o.secret = some sec → effObf o = true →
      ∃ key, deriveKey sec = some key ∧
        findIdx? (jstrV (Store.entryOf v none) ++ key) key
          = some (jstrV (Store.entryOf v none)).length) :
    ∃ m2, Store.set o ns now m k v none = some m2 ∧
      Store.get o ns now m2 k = some (jret (some v), m2) := by
  cases heff : effObf o
  · refine ⟨_, set_plain o heff ns now m k v none, ?_⟩
    exact get_after_set_plain o heff ns now now m k v none _
      (set_plain o heff ns now m k v none)
      (by simp [Store.ttlExpiry, jexpired_entry_none])
  · have hsec : ∃ sec, o.secret = some sec := by
      cases hs : o.secret with
      | none =>
        rw [effObf, secretTruthy, hs] at heff
        simp at heff
      | some sec => exact ⟨sec, rfl⟩
    obtain ⟨sec, hs⟩ := hsec
    obtain ⟨key, hk, hidx⟩ := hobf sec hs heff
    have htext : Store.ttlExpiry now none = none := rfl
    have hset := set_obf o sec key hs heff hk ns now m k v none
    rw [htext] at hset
    refine ⟨_, hset, ?_⟩
    have hne : (b64Enc (utf8Enc (jstrV (Store.entryOf v none) ++ key))).isEmpty = false := by
      refine b64Enc_not_empty _ ?_
      refine utf8Enc_not_empty _ ?_
      have := jstrV_len_pos (Store.entryOf v none)
      intro hnil
      rw [List.append_eq_nil] at hnil
      rw [hnil.1] at this
      simp at this
    have hdec : Store.decodeRecord o (b64Enc (utf8Enc (jstrV (Store.entryOf v none) ++ key)))
        = some (Store.entryOf v none) := by
      rw [decodeRecord_obf o sec key hs heff hk _ hidx, jparse_jstrV]
    rw [get_not_expired o ns now _ k _ (Store.entryOf v none)
      (getItem_setItem_self m (Store.pkey ns k) _) hne hdec
      (entryOf_ne_null v none) (jexpired_entry_none now v), jfieldV_entry_value]

/-- C2 (witness): the amended round trip at concrete inputs: an
obfuscating store with secret `"test-secret"` stores `"value"` and reads
it back unchanged. -/
theorem C2_amended_witness :
    ((Store.set { obfuscate := some true, secret := some ("test-secret".toList) }
        ("n".toList) 0 [] ("k".toList) (JValue.str ("value".toList)) none).bind
      (fun m2 => (Store.get { obfuscate := some true, secret := some ("test-secret".toList) }
        ("n".toList) 0 m2 ("k".toList)).map Prod.fst))
      = some (some (JValue.str ("value".toList))) := by
  obtain ⟨m2, h1, h2⟩ := C2_amended
    { obfuscate := some true, secret := some ("test-secret".toList) }
    ("n".toList) 0 [] ("k".toList) (JValue.str ("value".toList))
    (by
      intro sec hsec heff
      injection hsec with hsec2
      subst hsec2
      exact ⟨(b64Enc (("test-secret".toList).map Char.toNat)).take 32, by decide, by decide⟩)
  rw [h1, Option.some_bind, h2]
  rfl

/-! ## Stored `null` values (C10) -/

theorem get_medium_cases (o : StoreOptions) (ns : Str) (now : Int) (m : Medium) (k : Str)
    (r : Option JValue) (m2 : Medium) (h : Store.get o ns now m k = some (r, m2)) :
    m2 = m ∨ m2 = removeItem m (Store.pkey ns k) := by
  unfold Store.get at h
  split at h
  · injection h with h1
    injection h1 with h2 h3
    exact Or.inl h3.symm
  · split at h
    · injection h with h1
      injection h1 with h2 h3
      exact Or.inl h3.symm
    · split at h
      · injection h with h1
        injection h1 with h2 h3
        exact Or.inl h3.symm
      · split at h
        · exact absurd h (by simp)
        · split at h
          · injection h with h1
            injection h1 with h2 h3
            split at h3
            · exact Or.inr h3.symm
            · exact Or.inl h3.symm
          · injection h with h1
            injection h1 with h2 h3
            exact Or.inl h3.symm

theorem get_null_stored (o : StoreOptions) (hobf : effObf o = false) (ns : Str) (now : Int)
    (m : Medium) (k : Str)
    (hgi : getItem m (Store.pkey ns k) = some (jstrV (Store.entryOf JValue.null none))) :
    Store.get o ns now m k = some (none, m) := by
  rw [get_not_expired o ns now m k _ (Store.entryOf JValue.null none) hgi
    (jstrV_entry_not_empty _ _) (decodeRecord_plain_jstrV o hobf _)
    (entryOf_ne_null _ _) (jexpired_entry_none now _), jfieldV_entry_value]
  simp [jret]

theorem getItem_removeItem_cases (m : Medium) (q pk : Str) :
    getItem (removeItem m q) pk = getItem m pk ∨ getItem (removeItem m q) pk = none := by
  by_cases h : pk = q
  · subst h
    exact Or.inr (getItem_removeItem_self m pk)
  · exact Or.inl (getItem_removeItem_other m h)

theorem cleanupStep_cases (o : StoreOptions) (ns : Str) (now : Int) (m : Medium) (k : Str) :
    Store.cleanupStep o ns now m k = m ∨
      Store.cleanupStep o ns now m k = removeItem m (Store.pkey ns k) := by
  unfold Store.cleanupStep
  split
  · exact Or.inl rfl
  · split
    · exact Or.inl rfl
    · split
      · exact Or.inr rfl
      · split
        · exact Or.inr rfl
        · split
          · exact Or.inr rfl
          · exact Or.inl rfl

theorem getItem_foldl_cleanup (o : StoreOptions) (ns : Str) (now : Int) (pk : Str) (r : Str) :
    ∀ (ks : List Str) (m : Medium),
      getItem m pk = some r ∨ getItem m pk = none →
      getItem (ks.foldl (Store.cleanupStep o ns now) m) pk = some r ∨
        getItem (ks.foldl (Store.cleanupStep o ns now) m) pk = none := by
  intro ks
  induction ks with
  | nil =>
    intro m h
    simpa using h
  | cons k ks ih =>
    intro m h
    rw [List.foldl_cons]
    apply ih
    rcases cleanupStep_cases o ns now m k with hc | hc
    · rw [hc]
      exact h
    · rw [hc]
      rcases getItem_removeItem_cases m (Store.pkey ns k) pk with h2 | h2
      · rw [h2]
        exact h
      · exact Or.inr h2

theorem cleanupExpired_getItem_cases (o : StoreOptions) (ns : Str) (now : Int) (m : Medium)
    (pk : Str) (r : Str) (h : getItem m pk = some r) :
    getItem (Store.cleanupExpired o ns now m) pk = some r ∨
      getItem (Store.cleanupExpired o ns now m) pk = none := by
  unfold Store.cleanupExpired
  split
  · exact getItem_foldl_cleanup o ns now pk r _ m (Or.inl h)
  · exact Or.inl h

theorem getAllCollect_omits_null (o : StoreOptions) (hobf : effObf o = false) (ns : Str)
    (now : Int) (k : Str) :
    ∀ (ks : List Str) (acc : List (Str × JValue)) (m : Medium),
      (getItem m (Store.pkey ns k) = some (jstrV (Store.entryOf JValue.null none)) ∨
        getItem m (Store.pkey ns k) = none) →
      (∀ v, ¬(k, v) ∈ acc) →
      ∀ res m3, Store.getAllCollect o ns now ks (acc, m) = some (res, m3) →
        ∀ v, ¬(k, v) ∈ res := by
  intro ks
  induction ks with
  | nil =>
    intro acc m hP hacc res m3 hcol
    rw [Store.getAllCollect] at hcol
    injection hcol with h1
    injection h1 with h2 h3
    subst h2
    exact hacc
  | cons k2 ks ih =>
    intro acc m hP hacc res m3 hcol
    rw [Store.getAllCollect] at hcol
    dsimp only at hcol
    cases hg : Store.get o ns now m k2 with
    | none =>
      rw [hg] at hcol
      exact absurd hcol (by simp)
    | some rm =>
      obtain ⟨rv, m2⟩ := rm
      rw [hg] at hcol
      dsimp only at hcol
      by_cases hk2 : k2 = k
      · subst hk2
        have hget : Store.get o ns now m k2 = some (none, m) := by
          rcases hP with hP | hP
          · exact get_null_stored o hobf ns now m k2 hP
          · exact get_absent o ns now m k2 hP
        rw [hget] at hg
        injection hg with hg1
        injection hg1 with hg2 hg3
        subst hg2
        subst hg3
        dsimp only at hcol
        exact ih acc m hP hacc res m3 hcol
      · have hP2 : getItem m2 (Store.pkey ns k) =
            some (jstrV (Store.entryOf JValue.null none)) ∨
            getItem m2 (Store.pkey ns k) = none := by
          rcases get_medium_cases o ns now m k2 rv m2 hg with h | h
          · rw [h]
            exact hP
          · rw [h]
            rcases getItem_removeItem_cases m (Store.pkey ns k2) (Store.pkey ns k)
              with h2 | h2
            · rw [h2]
              exact hP
            · exact Or.inr h2
        have hacc2 : ∀ v, ¬(k, v) ∈
            (match rv with
             | some vv => acc ++ [(k2, vv)]
             | none => acc) := by
          cases rv with
          | none =>
            dsimp only
            exact hacc
          | some vv =>
            dsimp only
            intro v hv
            rcases List.mem_append.mp hv with h | h
            · exact hacc v h
            · simp only [List.mem_singleton, Prod.mk.injEq] at h
              exact hk2 h.1.symm
        exact ih _ m2 hP2 hacc2 res m3 hcol

/-- C10 (counterexample): after `set(key, null)` the key is NOT
indistinguishable from an absent key through the entire public interface:
`get` does return null and `has` false, but `keys()` lists the key, while
no key is listed for the genuinely absent case. -/
theorem C10_counterexample :
    ((Store.set plainOpts ("n".toList) 0 [] ("k".toList) JValue.null none).bind
      (fun m2 => (Store.get plainOpts ("n".toList) 0 m2 ("k".toList)).map Prod.fst))
      = some none ∧
    ((Store.set plainOpts ("n".toList) 0 [] ("k".toList) JValue.null none).map
      (fun m2 => Store.keys ("n".toList) m2)) = some [("k".toList)] ∧
    Store.keys ("n".toList) ([] : Medium) = [] := by decide

/-- C10 (amended): after `set(key, null)` with no TTL (stated for stores
without effective obfuscation), an unexpired physical record
`{"value":null}` exists in the medium, `get(key)` returns null, `has(key)`
returns false, and any successful `getAll()` omits the key — but the
stored null is NOT fully indistinguishable from an absent key, because
`keys()` still lists it (as the counterexample shows). -/
theorem C10_amended (o : StoreOptions) (hobf : effObf o = false) (ns : Str) (now : Int)
    (m : Medium) (k : Str) :
    ∃ m2, Store.set o ns now m k JValue.null none = some m2 ∧
      getItem m2 (Store.pkey ns k) = some (jstrV (Store.entryOf JValue.null none)) ∧
      Store.get o ns now m2 k = some (none, m2) ∧
      Store.has o ns now m2 k = some (false, m2) ∧
      k ∈ Store.keys ns m2 ∧
      (∀ res m3, Store.getAll o ns now m2 = some (res, m3) → ∀ v, ¬(k, v) ∈ res) := by
  have hset := set_plain o hobf ns now m k JValue.null none
  rw [show Store.ttlExpiry now none = none from rfl] at hset
  have hgi := getItem_setItem_self m (Store.pkey ns k)
    (jstrV (Store.entryOf JValue.null none))
  have hget := get_null_stored o hobf ns now
    (setItem m (Store.pkey ns k) (jstrV (Store.entryOf JValue.null none))) k hgi
  refine ⟨setItem m (Store.pkey ns k) (jstrV (Store.entryOf JValue.null none)),
    hset, hgi, hget, ?_, ?_, ?_⟩
  · simp [Store.has, hget]
  · rw [Store.keys, mem_getAllKeys, ← getItem_isSome_iff, hgi]
    rfl
  · intro res m3 hres v
    rw [Store.getAll] at hres
    exact getAllCollect_omits_null o hobf ns now k _ [] _
      (cleanupExpired_getItem_cases o ns now _ (Store.pkey ns k) _ hgi)
      (by simp) res m3 hres v

/-- C10 (witness): the amended statement at concrete inputs (default
options, empty medium). -/
theorem C10_amended_witness :
    effObf plainOpts = false ∧
    ∃ m2, Store.set plainOpts ("n".toList) 0 [] ("k".toList) JValue.null none = some m2 ∧
      getItem m2 (Store.pkey ("n".toList) ("k".toList))
        = some (jstrV (Store.entryOf JValue.null none)) ∧
      Store.get plainOpts ("n".toList) 0 m2 ("k".toList) = some (none, m2) ∧
      Store.has plainOpts ("n".toList) 0 m2 ("k".toList) = some (false, m2) ∧
      ("k".toList) ∈ Store.keys ("n".toList) m2 ∧
      (∀ res m3, Store.getAll plainOpts ("n".toList) 0 m2 = some (res, m3) →
        ∀ v, ¬(("k".toList), v) ∈ res) :=
  ⟨rfl, C10_amended plainOpts rfl ("n".toList) 0 [] ("k".toList)⟩
